import Mathlib

/-!
Verification of the wayfinder (ukbench) task enumerator and core-aware
scheduler.  The definitions below are a shallow embedding of the Go source:

  - src/job/job.go       : JobParam, Run, parseParamStr, parseParamInt,
                           paramPermutations, Job.nextTask, NewJob, Job.Start
  - src/unnamed/part_000 : TaskParam, Task, Task.Init, Task.Cancel, Task.UUID

Go slices are embedded as Lean lists (value semantics; the source only
observes slice prefixes it owns, and copies at task-creation time, so this
is faithful).  Go `int` is embedded as `Int` (no claim here exercises
64-bit overflow).  Loops that may fail to terminate are given an explicit
`fuel : Nat` argument and return `none` when the fuel is exhausted before
the loop exits; a function that returns `none` for every fuel diverges.
Fallible code returns `Except String`.
-/

set_option maxRecDepth 4000

namespace Wayfinder

/-- `JobParam` from src/job/job.go lines 46-55 (YAML-tagged struct). -/
structure JobParam where
  Name     : String
  «Type»   : String
  Default  : String
  Only     : List String
  Min      : String
  Max      : String
  Step     : String
  StepMode : String
deriving DecidableEq, Repr

/-- `Input` from src/job/job.go lines 57-60. -/
structure Input where
  Name : String
  Path : String
deriving DecidableEq, Repr

/-- `Output` from src/job/job.go lines 62-65. -/
structure Output where
  Name : String
  Path : String
deriving DecidableEq, Repr

/-- `Run` from src/job/job.go lines 67-75 (one container run stage). -/
structure Run where
  Name    : String
  Image   : String
  Cores   : Int
  Devices : List String
  Cmd     : String
  Path    : String
deriving DecidableEq, Repr

/-- `TaskParam` from src/unnamed/part_000 lines 33-37. -/
structure TaskParam where
  Name  : String
  «Type» : String
  Value : String
deriving DecidableEq, Repr

/-- The zero value of `TaskParam`, as produced by Go's
`make([]TaskParam, n)`. -/
def TaskParam.zero : TaskParam := ⟨"", "", ""⟩

/-- `Task` from src/unnamed/part_000 lines 40-46.  The private `uuid`
field is the lazy cache used by `Task.UUID`; tasks created by the
expander carry the Go zero value `""`. -/
structure Task where
  Params  : List TaskParam
  Inputs  : List Input
  Outputs : List Output
  uuid    : String
deriving DecidableEq, Repr

/-- `Job` from src/job/job.go lines 77-84 (the YAML-borne fields). -/
structure Job where
  Params  : List JobParam
  Inputs  : List Input
  Outputs : List Output
  Runs    : List Run
deriving DecidableEq, Repr

/-- Model of Go `strconv.Atoi`: an optional sign followed by one or more
decimal digits; anything else is a parse error (`none`).  (Go also
rejects values outside 64-bit range; no claim exercises such values.) -/
def atoi (s : String) : Option Int :=
  let signDigits : Int × List Char :=
    match s.data with
    | '-' :: rest => (-1, rest)
    | '+' :: rest => (1, rest)
    | cs => (1, cs)
  if signDigits.2 = [] then none
  else if signDigits.2.all (fun c => c.isDigit) then
    some (signDigits.1 * (signDigits.2.foldl (fun a c => a * 10 + (c.toNat - 48)) 0 : Nat))
  else none

/-- `parseParamStr` from src/job/job.go lines 175-195. -/
def parseParamStr (param : JobParam) : Except String (List TaskParam) :=
  if param.Only ≠ [] then
    .ok (param.Only.map (fun val => ⟨param.Name, param.«Type», val⟩))
  else if param.Default ≠ "" then
    .ok [⟨param.Name, param.«Type», param.Default⟩]
  else
    .ok []

/-- The `increment` loop of `parseParamInt` (src/job/job.go lines 241-248):
`for i := min; i <= max; i += step`, appending `strconv.Itoa(i)` each
iteration.  `fuel` bounds the number of loop iterations modelled. -/
def incLoop (name ty : String) (maxv step : Int) :
    Nat → Int → List TaskParam → Option (List TaskParam)
  | 0, _, _ => none
  | fuel + 1, i, acc =>
    if i ≤ maxv then
      incLoop name ty maxv step fuel (i + step) (acc ++ [⟨name, ty, toString i⟩])
    else
      some acc

/-- The `power` loop of `parseParamInt` (src/job/job.go lines 251-258):
`for i := min; i <= max; math.Pow(float64(step), float64(i))`.  The post
statement computes `step^i` and discards the result, so the loop variable
`i` is never updated. -/
def powLoop (name ty : String) (maxv : Int) :
    Nat → Int → List TaskParam → Option (List TaskParam)
  | 0, _, _ => none
  | fuel + 1, i, acc =>
    if i ≤ maxv then
      powLoop name ty maxv fuel i (acc ++ [⟨name, ty, toString i⟩])
    else
      some acc

/-- `parseParamInt` from src/job/job.go lines 198-279. -/
def parseParamInt (fuel : Nat) (param : JobParam) :
    Option (Except String (List TaskParam)) :=
  if param.Only ≠ [] then
    some (.ok (param.Only.map (fun val => ⟨param.Name, param.«Type», val⟩)))
  else if param.Min ≠ "" then
    match atoi param.Min with
    | none => some (.error "invalid min")
    | some minv =>
      match atoi param.Max with
      | none => some (.error "invalid max")
      | some maxv =>
        if maxv < minv then
          some (.error "Min cant be greater than max")
        else
          match (if param.Step ≠ "" then atoi param.Step else some 1) with
          | none => some (.error "Invalid step")
          | some step =>
            if step = 0 then some (.error "Invalid step")
            else if param.StepMode = "" ∨ param.StepMode = "increment" then
              match incLoop param.Name param.«Type» maxv step fuel minv [] with
              | none => none
              | some params => some (.ok params)
            else if param.StepMode = "power" then
              match powLoop param.Name param.«Type» maxv fuel minv [] with
              | none => none
              | some params => some (.ok params)
            else
              some (.error "Unknown step mode for param")
  else if param.Default ≠ "" then
    some (.ok [⟨param.Name, param.«Type», param.Default⟩])
  else
    some (.ok [])

/-- `paramPermutations` from src/job/job.go lines 283-295.  Note the
source accepts the three type strings "string", "int" and "integer". -/
def paramPermutations (fuel : Nat) (param : JobParam) :
    Option (Except String (List TaskParam)) :=
  if param.«Type» = "string" then some (parseParamStr param)
  else if param.«Type» = "int" then parseParamInt fuel param
  else if param.«Type» = "integer" then parseParamInt fuel param
  else some (.error "Unknown parameter type")

/-- The task built at a leaf of `Job.nextTask` (src/job/job.go lines
317-325): `make([]TaskParam, len(j.Params))` followed by `copy(p, curr)`
yields `curr` truncated to `n` entries and padded with zero values. -/
def padAssign (n : Nat) (curr : List TaskParam) : List TaskParam :=
  curr.take n ++ List.replicate (n - curr.length) TaskParam.zero

/-- Task construction at a leaf of `Job.nextTask` (src/job/job.go lines
320-324): inputs and outputs are shared from the job, `uuid` starts as
the Go zero value. -/
def mkTask (j : Job) (pa : List TaskParam) : Task :=
  { Params := pa, Inputs := j.Inputs, Outputs := j.Outputs, uuid := "" }

mutual

/-- `Job.nextTask` from src/job/job.go lines 298-339, recursing over the
suffix `ds` of `j.Params` (the Go index `i` corresponds to
`j.Params.length - ds.length`). Indexing an empty suffix (`j.Params[i]`
with `i` out of range) is a Go runtime panic, modelled as an error. -/
def nextTask (fuel : Nat) (j : Job) (ds : List JobParam)
    (curr : List TaskParam) (tasks : List Task) : Option (Except String (List Task)) :=
  match ds with
  | [] => some (.error "index out of range")
  | d :: ds1 =>
    match paramPermutations fuel d with
    | none => none
    | some (.error e) => some (.error e)
    | some (.ok params) => nextTaskLoop fuel j ds1 params curr tasks
termination_by (ds.length, 0)

/-- The `for _, param := range params` loop body of `Job.nextTask`
(src/job/job.go lines 305-336).  `ds` is the suffix of declarations
after the current one; `i + 1 == len(j.Params)` becomes `ds = []`. -/
def nextTaskLoop (fuel : Nat) (j : Job) (ds : List JobParam)
    (ps : List TaskParam) (curr : List TaskParam) (tasks : List Task) :
    Option (Except String (List Task)) :=
  match ps with
  | [] => some (.ok tasks)
  | p :: ps1 =>
    let curr1 :=
      match curr.getLast? with
      | some last => if last.Name = p.Name then curr.dropLast else curr
      | none => curr
    let curr2 := curr1 ++ [p]
    if ds = [] then
      nextTaskLoop fuel j ds ps1 curr2
        (tasks ++ [mkTask j (padAssign j.Params.length curr2)])
    else
      match nextTask fuel j ds curr2 [] with
      | none => none
      | some (.error e) => some (.error e)
      | some (.ok nts) => nextTaskLoop fuel j ds ps1 curr2 (tasks ++ nts)
termination_by (ds.length, ps.length + 1)

end

/-- `Job.tasks` from src/job/job.go lines 342-351. -/
def jobTasks (fuel : Nat) (j : Job) : Option (Except String (List Task)) :=
  nextTask fuel j j.Params [] []

/-- Declaration-order lexicographic cartesian product: the rightmost
parameter varies fastest.  This is the order the spec mandates for
`expand(decls)`; claim C1 compares `Job.nextTask` against it. -/
def prodAssign : List (List TaskParam) → List (List TaskParam)
  | [] => [[]]
  | vs :: rest => vs.flatMap (fun v => (prodAssign rest).map (fun a => v :: a))

/-!
MD5 (RFC 1321), the hash used by `Task.UUID` via Go's `crypto/md5`.
Bytes and 32-bit words are embedded as `Nat` with explicit reduction
modulo `2 ^ 32`.  The implementation is validated against the standard
test vectors in the theorems section.
-/

/-- Left rotation of a 32-bit word by `n` bits. -/
def rotl32 (x n : Nat) : Nat :=
  ((x <<< n) ||| (x >>> (32 - n))) % 4294967296

/-- The 64 MD5 sine-derived constants `K[i] = floor(2^32 * abs(sin(i+1)))`. -/
def md5K : List Nat :=
  [0xd76aa478, 0xe8c7b756, 0x242070db, 0xc1bdceee,
   0xf57c0faf, 0x4787c62a, 0xa8304613, 0xfd469501,
   0x698098d8, 0x8b44f7af, 0xffff5bb1, 0x895cd7be,
   0x6b901122, 0xfd987193, 0xa679438e, 0x49b40821,
   0xf61e2562, 0xc040b340, 0x265e5a51, 0xe9b6c7aa,
   0xd62f105d, 0x02441453, 0xd8a1e681, 0xe7d3fbc8,
   0x21e1cde6, 0xc33707d6, 0xf4d50d87, 0x455a14ed,
   0xa9e3e905, 0xfcefa3f8, 0x676f02d9, 0x8d2a4c8a,
   0xfffa3942, 0x8771f681, 0x6d9d6122, 0xfde5380c,
   0xa4beea44, 0x4bdecfa9, 0xf6bb4b60, 0xbebfbc70,
   0x289b7ec6, 0xeaa127fa, 0xd4ef3085, 0x04881d05,
   0xd9d4d039, 0xe6db99e5, 0x1fa27cf8, 0xc4ac5665,
   0xf4292244, 0x432aff97, 0xab9423a7, 0xfc93a039,
   0x655b59c3, 0x8f0ccc92, 0xffeff47d, 0x85845dd1,
   0x6fa87e4f, 0xfe2ce6e0, 0xa3014314, 0x4e0811a1,
   0xf7537e82, 0xbd3af235, 0x2ad7d2bb, 0xeb86d391]

/-- The MD5 per-round left-rotation amounts. -/
def md5S : List Nat :=
  [7, 12, 17, 22, 7, 12, 17, 22, 7, 12, 17, 22, 7, 12, 17, 22,
   5, 9, 14, 20, 5, 9, 14, 20, 5, 9, 14, 20, 5, 9, 14, 20,
   4, 11, 16, 23, 4, 11, 16, 23, 4, 11, 16, 23, 4, 11, 16, 23,
   6, 10, 15, 21, 6, 10, 15, 21, 6, 10, 15, 21, 6, 10, 15, 21]

/-- The MD5 nonlinear functions F, G, H, I selected by round index. -/
def md5F (i b c d : Nat) : Nat :=
  if i < 16 then (b &&& c) ||| ((b ^^^ 0xffffffff) &&& d)
  else if i < 32 then (d &&& b) ||| ((d ^^^ 0xffffffff) &&& c)
  else if i < 48 then b ^^^ c ^^^ d
  else c ^^^ (b ||| (d ^^^ 0xffffffff))

/-- The MD5 message-word index for round `i`. -/
def md5G (i : Nat) : Nat :=
  if i < 16 then i
  else if i < 32 then (5 * i + 1) % 16
  else if i < 48 then (3 * i + 5) % 16
  else (7 * i) % 16

/-- Little-endian byte serialization of `x` into `k` bytes. -/
def leBytes (k x : Nat) : List Nat :=
  (List.range k).map (fun i => (x >>> (8 * i)) % 256)

/-- MD5 message padding: a `0x80` byte, zeros to 56 mod 64, then the
bit length as a 64-bit little-endian quantity. -/
def md5Pad (msg : List Nat) : List Nat :=
  let z := (56 + 64 - ((msg.length + 1) % 64)) % 64
  msg ++ [0x80] ++ List.replicate z 0 ++ leBytes 8 ((8 * msg.length) % 18446744073709551616)

/-- Decode a byte list into little-endian 32-bit words, four bytes each. -/
def md5Words : List Nat → List Nat
  | b0 :: b1 :: b2 :: b3 :: rest =>
    (b0 + 256 * b1 + 65536 * b2 + 16777216 * b3) :: md5Words rest
  | _ => []

/-- Split bytes into 64-byte blocks of 16 words; the fuel is an upper
bound on the number of blocks (each step consumes 64 ≥ 1 bytes, so the
byte count suffices). -/
def md5BlocksGo : Nat → List Nat → List (List Nat)
  | 0, _ => []
  | fuel + 1, bs =>
    if bs = [] then []
    else md5Words (bs.take 64) :: md5BlocksGo fuel (bs.drop 64)

/-- Split a padded message into 64-byte blocks of 16 words. -/
def md5Blocks (bs : List Nat) : List (List Nat) :=
  md5BlocksGo bs.length bs

/-- The four-word MD5 chaining state. -/
structure MD5State where
  a : Nat
  b : Nat
  c : Nat
  d : Nat
deriving DecidableEq, Repr

/-- One MD5 round applied to the state. -/
def md5Round (M : List Nat) (st : MD5State) (i : Nat) : MD5State :=
  let f := (md5F i st.b st.c st.d + st.a + md5K.getD i 0 + M.getD (md5G i) 0) % 4294967296
  ⟨st.d, (st.b + rotl32 f (md5S.getD i 0)) % 4294967296, st.b, st.c⟩

/-- Process one 16-word block: 64 rounds plus the feed-forward addition. -/
def md5ProcessBlock (st : MD5State) (M : List Nat) : MD5State :=
  let r := (List.range 64).foldl (md5Round M) st
  ⟨(st.a + r.a) % 4294967296, (st.b + r.b) % 4294967296,
   (st.c + r.c) % 4294967296, (st.d + r.d) % 4294967296⟩

/-- The MD5 initialization vector. -/
def md5Init : MD5State := ⟨0x67452301, 0xefcdab89, 0x98badcfe, 0x10325476⟩

/-- The 16-byte MD5 digest of a byte sequence. -/
def md5Digest (msg : List Nat) : List Nat :=
  let fin := (md5Blocks (md5Pad msg)).foldl md5ProcessBlock md5Init
  leBytes 4 fin.a ++ leBytes 4 fin.b ++ leBytes 4 fin.c ++ leBytes 4 fin.d

/-- The sixteen lowercase hexadecimal digits. -/
def hexChars : List Char := "0123456789abcdef".data

/-- Two lowercase hex characters for one byte (Go's `%x` formatting). -/
def byteHex (b : Nat) : List Char :=
  [hexChars.getD (b / 16 % 16) '0', hexChars.getD (b % 16) '0']

/-- Lowercase hex digest string of the MD5 of a byte sequence. -/
def md5Hex (msg : List Nat) : String :=
  ⟨(md5Digest msg).flatMap byteHex⟩

/-- UTF-8 encoding of one character (Go strings are UTF-8 bytes). -/
def utf8Bytes (ch : Char) : List Nat :=
  let n := ch.toNat
  if n < 128 then [n]
  else if n < 2048 then [192 + n / 64, 128 + n % 64]
  else if n < 65536 then [224 + n / 4096, 128 + n / 64 % 64, 128 + n % 64]
  else [240 + n / 262144, 128 + n / 4096 % 64, 128 + n / 64 % 64, 128 + n % 64]

/-- The bytes of a string, as hashed by Go's `io.WriteString`. -/
def strBytes (s : String) : List Nat :=
  s.data.flatMap utf8Bytes

/-- The seed written into the hash by `Task.UUID`
(src/unnamed/part_000 lines 73-76): the lines `"{name}={value}\n"` in
parameter order. -/
def Task.uuidSeed (t : Task) : String :=
  String.join (t.Params.map (fun param => param.Name ++ "=" ++ param.Value ++ "\n"))

/-- `Task.UUID` from src/unnamed/part_000 lines 69-82: the hex digest of
the MD5 of the seed, with the lazily-written `uuid` field as cache. -/
def Task.UUID (t : Task) : String :=
  if t.uuid = "" then md5Hex (strBytes t.uuidSeed) else t.uuid

/-- `RuntimeConfig` from src/job/job.go lines 87-90. -/
structure RuntimeConfig where
  Cpus          : List Int
  ScheduleGrace : Int
deriving DecidableEq, Repr

/-- The inner loop of `NewJob` over `job.Runs` (src/job/job.go lines
146-160): error out on a run wanting more cores than the pool, rewrite
`cores = 0` to `1`.  Go mutates `job.Runs` in place and aborts at the
first offending index; this returns the runs as mutated so far only on
success, which is observationally equal (`NewJob` discards the job on
error). -/
def checkRunCores (cpus : Nat) : List Run → Except String (List Run)
  | [] => .ok []
  | r :: rs =>
    if r.Cores > (cpus : Int) then
      .error "Run has too many cores"
    else
      let r2 := if r.Cores = 0 then { r with Cores := 1 } else r
      match checkRunCores cpus rs with
      | .error e => .error e
      | .ok rs2 => .ok (r2 :: rs2)

/-- A task after `Task.Init` (src/unnamed/part_000 lines 49-59): the Go
`Task.runs` queue field, filled with the job's runs in order.  The queue
type itself is not under src/; per the spec (section 4.2) it is a FIFO,
embedded as a list with head = front. -/
structure InitTask where
  task : Task
  runs : List Run
deriving DecidableEq, Repr

/-- `Task.Cancel` from src/unnamed/part_000 lines 62-67: clears the run
queue (`Queue.Clear` is not under src/; per the spec it empties the
FIFO). -/
def InitTask.Cancel (t : InitTask) : InitTask :=
  { t with runs := [] }

/-- The per-task loop of `NewJob` (src/job/job.go lines 145-164): for
every expanded task, re-run the cores check over the job's current runs,
then initialize the task's queue from them and add it to the wait
list. -/
def newJobLoop (cpus : Nat) : List Task → List Run → List InitTask →
    Except String (List Run × List InitTask)
  | [], runs, acc => .ok (runs, acc)
  | t :: ts, runs, acc =>
    match checkRunCores cpus runs with
    | .error e => .error e
    | .ok runs2 => newJobLoop cpus ts runs2 (acc ++ [⟨t, runs2⟩])

/-- `NewJob` from src/job/job.go lines 98-171, after YAML parsing (file
access and logging are external): expand the parameter space into tasks,
then check cores and initialize each task.  The result carries the
job's final `Runs` and the wait list of initialized tasks. -/
def NewJob (fuel : Nat) (j : Job) (cfg : RuntimeConfig) :
    Option (Except String (List Run × List InitTask)) :=
  match jobTasks fuel j with
  | none => none
  | some (.error e) => some (.error e)
  | some (.ok tasks) => some (newJobLoop cfg.Cpus.length tasks j.Runs [])

/-!
The scheduler loop of `Job.Start` (src/job/job.go lines 354-503) and its
run-supervisor goroutines (lines 447-480), as a transition system.  Each
transition is one segment of execution between lock-release boundaries
of the Core Map.  Tasks are identified by their wait-list index; `uuid`
maps an index to the task's `Task.UUID()` string, which is what the
exclusion scan compares (lines 389-396).
-/

/-- `ActiveTaskRun` (src/unnamed/part_000 lines 85-90) as dispatched by
`Job.Start`: the task (by index), the dispatched run stage's name, the
allocated core ids (`CoreIds`), and an allocation identity
distinguishing distinct `NewActiveTaskRun` heap objects. -/
structure ATR where
  taskIdx : Nat
  runName : String
  allocId : Nat
  coreIds : List Nat
deriving DecidableEq, Repr

/-- The scheduler driver's control point: between iterations; holding
the unlocked peek (`runs.Peak`, src/job/job.go line 380) of the next
stage `st` of task `t`, taken before the exclusion scan; or midway
through the `tasksInFlight.Set` loop (lines 423-441) with the listed
core ids still to set. -/
inductive Driver where
  | idle : Driver
  | peeked (t : Nat) (st : Run) : Driver
  | dispatching (atr : ATR) (toSet : List Nat) : Driver
deriving DecidableEq, Repr

/-- The control point of one run supervisor goroutine (src/job/job.go
lines 447-480), in source order: inside `activeTaskRun.Start()`;
returned, with the failure flag (`err != nil || returnCode != 0`);
`task.Cancel()` performed; `wg.Done()` performed, with the core ids of
`atr.CoreIds` not yet `Unset`; exited. -/
inductive SupPhase where
  | running : SupPhase
  | returned (failed : Bool) : SupPhase
  | cancelled : SupPhase
  | signalled (pending : List Nat) : SupPhase
  | done : SupPhase
deriving DecidableEq, Repr

/-- One supervisor goroutine: its `ActiveTaskRun` and control point. -/
structure SupState where
  atr   : ATR
  phase : SupPhase
deriving DecidableEq, Repr

/-- The core ids a supervisor has yet to release: all of its
`atr.CoreIds` until it starts the `Unset` loop, then the remainder. -/
def SupState.pending (sup : SupState) : List Nat :=
  match sup.phase with
  | .signalled P => P
  | .done => []
  | _ => sup.atr.coreIds

/-- Modelled from the spec: the state shared by the scheduler driver and
the supervisors.  The implementations of the Core Map, the per-task Run
Queue and the Wait List are not under src/ (only their call sites are),
so their operations are modelled from spec sections 4.2-4.4: the Core
Map is a table from core id to occupying run or vacant, each task's
queue is a FIFO list, the wait list an index-addressed task list.
`dispatched` is a ghost log of dispatch events `(task, stage name)`;
`wg` is the `sync.WaitGroup` counter; `nextId` feeds fresh
`ActiveTaskRun` identities. -/
structure SchedState where
  queues     : List (List Run)
  waitList   : List Nat
  cores      : List (Option ATR)
  driver     : Driver
  sups       : List SupState
  wg         : Nat
  nextId     : Nat
  dispatched : List (Nat × String)
deriving DecidableEq, Repr

/-- The Core Map entry for core id `c` (vacant when out of range). -/
def SchedState.core (s : SchedState) (c : Nat) : Option ATR :=
  s.cores.getD c none

/-- The run queue of task `t`. -/
def SchedState.queue (s : SchedState) (t : Nat) : List Run :=
  s.queues.getD t []

/-- Modelled from the spec: one transition per lock-release boundary of
`Job.Start` (src/job/job.go lines 354-503).  `peekStage` is the
driver's unlocked `runs.Peak` of the next stage of a wait-listed task
together with the capacity fit (lines 380-386) — no lock covers the
window from here to the scan, so supervisor transitions can interleave;
`peekAbort` is the `goto iterator` path that abandons the peek (an
exclusion-scan hit or an unschedulable run, lines 386-394);
`scanDispatch` is the exclusion scan under the Core Map read lock
(lines 388-397), the core selection (lines 399-404) and the dequeue
(line 420) — the dequeue's error is ignored in the source, so it pops
the current head if any and the *peeked* stage is dispatched even if
the queue was emptied by a concurrent `Cancel` since the peek;
`setCore` is one `coreMap.set` (lines 423-441); `finishDispatch`
spawns the supervisor (lines 446-447); `supReturn`, `supCancel`,
`supSignal`, `supUnset` and `supDone` are the supervisor segments
(lines 448-479) in source order — `wg.Done()` precedes the `Unset`
loop; `dispatchFail` is the `NewActiveTaskRun`-failure path (lines
407-415), which cancels the task and abandons the peek; `drainRemove`
is the drain check (lines 486-490). -/
inductive Step (uuid : Nat → String) : SchedState → SchedState → Prop where
  | peekStage (s : SchedState) (t : Nat) (st : Run) (rest : List Run)
      (hdrv : s.driver = .idle)
      (hw : t ∈ s.waitList)
      (hq : s.queue t = st :: rest) :
      Step uuid s { s with driver := .peeked t st }
  | peekAbort (s : SchedState) (t : Nat) (st : Run)
      (hdrv : s.driver = .peeked t st) :
      Step uuid s { s with driver := .idle }
  | scanDispatch (s : SchedState) (t : Nat) (st : Run) (cs : List Nat)
      (hdrv : s.driver = .peeked t st)
      (hnd : cs.Nodup)
      (hlen : cs.length = st.Cores.toNat)
      (hvac : ∀ c ∈ cs, s.core c = none)
      (hexcl : ∀ c a, s.core c = some a → uuid a.taskIdx ≠ uuid t) :
      Step uuid s { s with
        queues := s.queues.set t (s.queue t).tail,
        driver := .dispatching ⟨t, st.Name, s.nextId, cs⟩ cs,
        nextId := s.nextId + 1,
        dispatched := s.dispatched ++ [(t, st.Name)] }
  | setCore (s : SchedState) (atr : ATR) (c : Nat) (rest : List Nat)
      (hdrv : s.driver = .dispatching atr (c :: rest))
      (hvac : s.core c = none) :
      Step uuid s { s with
        cores := s.cores.set c (some atr),
        driver := .dispatching atr rest }
  | finishDispatch (s : SchedState) (atr : ATR)
      (hdrv : s.driver = .dispatching atr []) :
      Step uuid s { s with
        driver := .idle,
        sups := s.sups ++ [⟨atr, .running⟩],
        wg := s.wg + 1 }
  | supReturn (s : SchedState) (k : Nat) (atr : ATR) (failed : Bool)
      (hsup : s.sups[k]? = some ⟨atr, .running⟩) :
      Step uuid s { s with sups := s.sups.set k ⟨atr, .returned failed⟩ }
  | supCancel (s : SchedState) (k : Nat) (atr : ATR)
      (hsup : s.sups[k]? = some ⟨atr, .returned true⟩) :
      Step uuid s { s with
        queues := s.queues.set atr.taskIdx [],
        sups := s.sups.set k ⟨atr, .cancelled⟩ }
  | supSignal (s : SchedState) (k : Nat) (atr : ATR) (ph : SupPhase)
      (hsup : s.sups[k]? = some ⟨atr, ph⟩)
      (hph : ph = .returned false ∨ ph = .cancelled) :
      Step uuid s { s with
        sups := s.sups.set k ⟨atr, .signalled atr.coreIds⟩,
        wg := s.wg - 1 }
  | supUnset (s : SchedState) (k : Nat) (atr : ATR) (c : Nat) (pending : List Nat)
      (hsup : s.sups[k]? = some ⟨atr, .signalled (c :: pending)⟩) :
      Step uuid s { s with
        cores := s.cores.set c none,
        sups := s.sups.set k ⟨atr, .signalled pending⟩ }
  | supDone (s : SchedState) (k : Nat) (atr : ATR)
      (hsup : s.sups[k]? = some ⟨atr, .signalled []⟩) :
      Step uuid s { s with sups := s.sups.set k ⟨atr, .done⟩ }
  | dispatchFail (s : SchedState) (t : Nat) (st : Run)
      (hdrv : s.driver = .peeked t st) :
      Step uuid s { s with
        queues := s.queues.set t [],
        driver := .idle }
  | drainRemove (s : SchedState) (t : Nat)
      (hw : t ∈ s.waitList)
      (hq : s.queue t = []) :
      Step uuid s { s with waitList := s.waitList.erase t }

/-- Scheduler start state for `Job.Start`: every task wait-listed with
its full queue, all cores vacant, no dispatch in flight. -/
def initState (qs : List (List Run)) (ncores : Nat) : SchedState :=
  { queues := qs, waitList := List.range qs.length,
    cores := List.replicate ncores none, driver := .idle, sups := [],
    wg := 0, nextId := 0, dispatched := [] }

/-- Reachability along scheduler/supervisor transitions. -/
def Reach (uuid : Nat → String) : SchedState → SchedState → Prop :=
  Relation.ReflTransGen (Step uuid)

/-- Invariant P1 (claim C2): Core Map entries whose tasks have the same
uuid are the same `ActiveTaskRun`. -/
def CoreUnique (uuid : Nat → String) (s : SchedState) : Prop :=
  ∀ c1 c2 a1 a2, s.core c1 = some a1 → s.core c2 = some a2 →
    uuid a1.taskIdx = uuid a2.taskIdx → a1 = a2

/-- Strengthening of P1: while the driver is mid-dispatch, every Core
Map entry uuid-matching the in-flight run is that run. -/
def DispUnique (uuid : Nat → String) (s : SchedState) : Prop :=
  ∀ atr toSet, s.driver = .dispatching atr toSet →
    ∀ c a, s.core c = some a → uuid a.taskIdx = uuid atr.taskIdx → a = atr

/-- Core `c` holding run `a` is accounted for: either the driver is
mid-dispatch of `a`, or a live (not yet exited) supervisor for `a` has
`c` among the core ids it has still to release. -/
def Owned (s : SchedState) (c : Nat) (a : ATR) : Prop :=
  (∃ toSet, s.driver = .dispatching a toSet) ∨
  (∃ (k : Nat) (sup : SupState), s.sups[k]? = some sup ∧ sup.atr = a ∧
    sup.phase ≠ .done ∧ c ∈ sup.pending)

/-- Every occupied core is accounted for (claim C10, amended). -/
def OwnerInv (s : SchedState) : Prop :=
  ∀ c a, s.core c = some a → Owned s c a

/-- The ids still to set during a dispatch lie in the run's `CoreIds`. -/
def ToSetInv (s : SchedState) : Prop :=
  ∀ a toSet, s.driver = .dispatching a toSet → toSet ⊆ a.coreIds

/-- A non-vacant entry lists its core id in its run's `CoreIds`
(spec invariant I2). -/
def CoreIdsInv (s : SchedState) : Prop :=
  ∀ c a, s.core c = some a → c ∈ a.coreIds

/-!
Concrete instances used by the claims' example parts and witnesses.
-/

/-- The two-parameter job of the spec's ordering law: integer `x` with
`only = [1,2]`, integer `y` with `only = [10,20]`. -/
def exJob : Job :=
  { Params := [⟨"x", "integer", "", ["1", "2"], "", "", "", ""⟩,
               ⟨"y", "integer", "", ["10", "20"], "", "", "", ""⟩],
    Inputs := [], Outputs := [], Runs := [] }

/-- Shorthand for a run stage with the given name and core count. -/
def mkStage (name : String) (cores : Int) : Run :=
  { Name := name, Image := "", Cores := cores, Devices := [], Cmd := "",
    Path := "" }

/-- Task-uuid table for the scheduler scenarios: distinct per index. -/
def uuidEx (n : Nat) : String := toString n

/-- Stage 1 of the failing task in the cancellation scenario. -/
def stage1 : Run := mkStage "stage1" 1

/-- Stage 2 of the failing task (never dispatched). -/
def stage2 : Run := mkStage "stage2" 1

/-- The single stage of the other, unaffected task. -/
def stageB : Run := mkStage "stageB" 1

/-- Scenario start: task 0 has stages 1 and 2, task 1 has one stage,
two cores. -/
def exS0 : SchedState := initState [[stage1, stage2], [stageB]] 2

/-- The `ActiveTaskRun` dispatched for task 0's stage 1. -/
def atrEx : ATR := ⟨0, "stage1", 0, [0]⟩

/-- After the driver's unlocked peek of task 0's stage 1. -/
def exS0a : SchedState := { exS0 with driver := .peeked 0 stage1 }

/-- After the driver's exclusion check, core selection and dequeue of
stage 1 for task 0. -/
def exS1 : SchedState :=
  { queues := [[stage2], [stageB]], waitList := [0, 1], cores := [none, none],
    driver := .dispatching atrEx [0], sups := [], wg := 0, nextId := 1,
    dispatched := [(0, "stage1")] }

/-- After `coreMap.set 0`. -/
def exS2 : SchedState :=
  { exS1 with cores := [some atrEx, none], driver := .dispatching atrEx [] }

/-- After the supervisor goroutine is spawned. -/
def exS3 : SchedState :=
  { exS2 with driver := .idle, sups := [⟨atrEx, .running⟩], wg := 1 }

/-- After the runner returns exit code 1 (a failure). -/
def exS4 : SchedState :=
  { exS3 with sups := [⟨atrEx, .returned true⟩] }

/-- After `task.Cancel()`: task 0's queue is emptied. -/
def exS5 : SchedState :=
  { exS4 with queues := [[], [stageB]], sups := [⟨atrEx, .cancelled⟩] }

/-- After `wg.Done()`: the wait group is signalled while core 0 is still
occupied by the run. -/
def exS6 : SchedState :=
  { exS5 with sups := [⟨atrEx, .signalled [0]⟩], wg := 0 }

/-- After the exclusion scan, core selection and dequeue of stage 1. -/
def rs2 : SchedState :=
  { queues := [[stage2]], waitList := [0], cores := [none],
    driver := .dispatching atrEx [0], sups := [], wg := 0, nextId := 1,
    dispatched := [(0, "stage1")] }

/-- The arithmetic progression prescribed for increment mode: the
values `min, min+step, min+2*step, ...` while `≤ max`, rendered as task
parameters (requires `min ≤ max` and `step > 0` to be meaningful). -/
def incValues (name ty : String) (minv maxv step : Int) : List TaskParam :=
  (List.range ((maxv - minv).toNat / step.toNat + 1)).map
    (fun k : Nat => ⟨name, ty, toString (minv + step * (k : Int))⟩)

/-- The conditions under which `paramPermutations` reports a load error,
read off src/job/job.go lines 198-295: an unknown type (not "string",
"int" or "integer"); or an int/integer declaration with no `only`
values and a nonempty `min` whose min or max does not parse, whose max
is less than its min, whose present step does not parse or is zero, or
whose step mode is none of "", "increment", "power". -/
def declInvalid (p : JobParam) : Bool :=
  if p.«Type» = "string" then false
  else if p.«Type» = "int" ∨ p.«Type» = "integer" then
    if p.Only ≠ [] then false
    else if p.Min ≠ "" then
      match atoi p.Min with
      | none => true
      | some minv =>
        match atoi p.Max with
        | none => true
        | some maxv =>
          if maxv < minv then true
          else
            match (if p.Step ≠ "" then atoi p.Step else some 1) with
            | none => true
            | some st =>
              if st = 0 then true
              else
                decide (p.StepMode ≠ "" ∧ p.StepMode ≠ "increment" ∧
                  p.StepMode ≠ "power")
    else false
  else true

/-- A job whose single string parameter has no `only` values and no
default: its expansion yields zero tasks, so `NewJob`'s per-task loop
never runs and the run stages are never checked or normalized. -/
def jobZeroTasks : Job :=
  { Params := [⟨"a", "string", "", [], "", "", "", ""⟩],
    Inputs := [], Outputs := [],
    Runs := [mkStage "r1" 5, mkStage "r2" 0] }

/-- A job with one concrete task (string parameter with a single `only`
value) and stages of cores 0 and 1. -/
def exJob8 : Job :=
  { Params := [⟨"a", "string", "", ["v"], "", "", "", ""⟩],
    Inputs := [], Outputs := [],
    Runs := [mkStage "r1" 0, mkStage "r2" 1] }

-- ===========================================================================
-- Theorems
-- ===========================================================================

example : parseParamInt 10 ⟨"x", "integer", "", [], "0", "4", "2", ""⟩ =
    some (.ok [⟨"x", "integer", "0"⟩, ⟨"x", "integer", "2"⟩, ⟨"x", "integer", "4"⟩]) := rfl

example : parseParamInt 100 ⟨"x", "integer", "", [], "1", "3", "2", "power"⟩ = none := rfl

/-- Reindexing helper: peeling the first element off a mapped range of
progression values. -/
lemma map_range_succ_shift (name ty : String) (b step : Int) (m : Nat) :
    List.map (fun k : Nat => (⟨name, ty, toString (b + step * (k : Int))⟩ : TaskParam))
      (List.range (m + 1))
    = (⟨name, ty, toString b⟩ : TaskParam) ::
      List.map (fun k : Nat => (⟨name, ty, toString (b + step + step * (k : Int))⟩ : TaskParam))
        (List.range m) := by
  rw [List.range_succ_eq_map, List.map_cons, List.map_map]
  simp only [List.cons.injEq]
  refine ⟨by norm_num, ?_⟩
  apply List.map_congr_left
  intro k _
  simp only [Function.comp_apply]
  congr 2
  push_cast
  ring

/-- With a positive step, the increment loop of `parseParamInt` returns
the arithmetic progression, provided the fuel exceeds the iteration
count `(max - min).toNat / step.toNat + 1`. -/
lemma incLoop_spec (name ty : String) (maxv step : Int) (hstep : 0 < step) :
    ∀ (fuel : Nat) (i : Int) (acc : List TaskParam),
    (if maxv < i then 0 else (maxv - i).toNat / step.toNat + 1) < fuel →
    incLoop name ty maxv step fuel i acc =
      some (acc ++ (List.range
          (if maxv < i then 0 else (maxv - i).toNat / step.toNat + 1)).map
        (fun k => ⟨name, ty, toString (i + step * (k : Nat))⟩)) := by
  intro fuel
  induction fuel with
  | zero => intro i acc h; omega
  | succ fuel ih =>
    intro i acc h
    by_cases hle : i ≤ maxv
    · have hnotlt : ¬ maxv < i := not_lt.mpr hle
      have hst : 0 < step.toNat := by omega
      have hcnt : (if maxv < i + step then 0
            else (maxv - (i + step)).toNat / step.toNat + 1) + 1
          = (maxv - i).toNat / step.toNat + 1 := by
        by_cases h2 : maxv < i + step
        · simp only [if_pos h2]
          have hlt : (maxv - i).toNat < step.toNat := by omega
          rw [Nat.div_eq_of_lt hlt]
        · simp only [if_neg h2]
          have heq : (maxv - i).toNat = (maxv - (i + step)).toNat + step.toNat := by
            omega
          rw [heq, Nat.add_div_right _ hst]
      have hlt2 : (if maxv < i + step then 0
          else (maxv - (i + step)).toNat / step.toNat + 1) < fuel := by
        simp only [if_neg hnotlt] at h
        omega
      simp only [incLoop, if_pos hle]
      rw [ih (i + step) _ hlt2]
      congr 1
      conv_rhs => rw [if_neg hnotlt, ← hcnt]
      rw [map_range_succ_shift]
      simp only [List.append_assoc, List.singleton_append]
    · have hnotle : maxv < i := not_le.mp hle
      simp only [incLoop, if_neg hle, if_pos hnotle, List.range_zero,
        List.map_nil, List.append_nil]

/-- With a non-positive step and `min ≤ max`, the increment loop never
exits: the guard stays true for every fuel. -/
lemma incLoop_nonpos_none (name ty : String) (maxv step : Int)
    (hstep : step ≤ 0) :
    ∀ (fuel : Nat) (i : Int) (acc : List TaskParam), i ≤ maxv →
    incLoop name ty maxv step fuel i acc = none := by
  intro fuel
  induction fuel with
  | zero => intro i acc _; rfl
  | succ fuel ih =>
    intro i acc hi
    simp only [incLoop, if_pos hi]
    exact ih (i + step) _ (by omega)

/-- The source's power-mode loop never exits when `min ≤ max`: the post
statement discards `math.Pow`'s result, so the loop variable never
changes and the guard stays true for every fuel. -/
lemma powLoop_not_term (name ty : String) (maxv : Int) :
    ∀ (fuel : Nat) (i : Int) (acc : List TaskParam), i ≤ maxv →
    powLoop name ty maxv fuel i acc = none := by
  intro fuel
  induction fuel with
  | zero => intro i acc _; rfl
  | succ fuel ih =>
    intro i acc hi
    simp only [powLoop, if_pos hi]
    exact ih i _ hi

/-- Unfolding of `parseParamInt` on an increment-mode range declaration
with valid bounds and step. -/
lemma parseParamInt_increment (p : JobParam) (fuel : Nat) (minv maxv step : Int)
    (hOnly : p.Only = []) (hMin : p.Min ≠ "")
    (hm : atoi p.Min = some minv) (hM : atoi p.Max = some maxv)
    (hle : ¬ maxv < minv)
    (hstep : (if p.Step ≠ "" then atoi p.Step else some 1) = some step)
    (hs0 : ¬ step = 0)
    (hmode : p.StepMode = "" ∨ p.StepMode = "increment") :
    parseParamInt fuel p =
      match incLoop p.Name p.«Type» maxv step fuel minv [] with
      | none => none
      | some params => some (.ok params) := by
  rcases hmode with hmo | hmo <;>
    simp [parseParamInt, hOnly, hMin, hm, hM, hstep, hs0, hmo, hle]

/-- Unfolding of `parseParamInt` on a power-mode range declaration with
valid bounds and step. -/
lemma parseParamInt_power (p : JobParam) (fuel : Nat) (minv maxv step : Int)
    (hOnly : p.Only = []) (hMin : p.Min ≠ "")
    (hm : atoi p.Min = some minv) (hM : atoi p.Max = some maxv)
    (hle : ¬ maxv < minv)
    (hstep : (if p.Step ≠ "" then atoi p.Step else some 1) = some step)
    (hs0 : ¬ step = 0)
    (hmode : p.StepMode = "power") :
    parseParamInt fuel p =
      match powLoop p.Name p.«Type» maxv fuel minv [] with
      | none => none
      | some params => some (.ok params) := by
  have hne : p.StepMode ≠ "" := by rw [hmode]; decide
  have hni : p.StepMode ≠ "increment" := by rw [hmode]; decide
  simp [parseParamInt, hOnly, hMin, hm, hM, hstep, hs0, hmode, hle, hne, hni]

/-- C7 (amended): for an integer declaration with `step_mode` absent or
"increment", parsable `min ≤ max` and a parsable **positive** step,
`parseParamInt` returns exactly the values min, min+step, min+2*step,
... while each is ≤ max, in that order (first conjunct; the second and
third conjuncts say the emitted index range is exactly the prefix whose
values are ≤ max); with min=0, max=4, step=2 this is "0","2","4" (last
conjunct).  For a negative (still non-zero) step, the source loop never
returns, so the claim's "non-zero step" must be narrowed to "positive
step" (fourth conjunct). -/
theorem C7_increment_range :
    (∀ (p : JobParam) (fuel : Nat) (minv maxv step : Int),
      p.Only = [] → p.Min ≠ "" →
      atoi p.Min = some minv → atoi p.Max = some maxv → minv ≤ maxv →
      ((p.Step = "" ∧ step = 1) ∨ (p.Step ≠ "" ∧ atoi p.Step = some step)) →
      0 < step →
      (p.StepMode = "" ∨ p.StepMode = "increment") →
      (maxv - minv).toNat / step.toNat + 1 < fuel →
      parseParamInt fuel p =
        some (.ok (incValues p.Name p.«Type» minv maxv step))) ∧
    (∀ (minv maxv step : Int), 0 < step → minv ≤ maxv →
      (∀ k : Nat, k < (maxv - minv).toNat / step.toNat + 1 →
        minv + step * k ≤ maxv) ∧
      maxv < minv + step * (((maxv - minv).toNat / step.toNat + 1 : Nat) : Int)) ∧
    (∀ (p : JobParam) (fuel : Nat) (minv maxv step : Int),
      p.Only = [] → p.Min ≠ "" →
      atoi p.Min = some minv → atoi p.Max = some maxv → minv ≤ maxv →
      p.Step ≠ "" → atoi p.Step = some step → step < 0 →
      (p.StepMode = "" ∨ p.StepMode = "increment") →
      parseParamInt fuel p = none) ∧
    parseParamInt 10 ⟨"x", "integer", "", [], "0", "4", "2", ""⟩ =
      some (.ok [⟨"x", "integer", "0"⟩, ⟨"x", "integer", "2"⟩,
        ⟨"x", "integer", "4"⟩]) := by
  refine ⟨?_, ?_, ?_, rfl⟩
  · intro p fuel minv maxv step hOnly hMin hm hM hle hstep hpos hmode hfuel
    have hstep2 : (if p.Step ≠ "" then atoi p.Step else some 1) = some step := by
      rcases hstep with ⟨h1, h2⟩ | ⟨h1, h2⟩
      · simp [h1, h2]
      · simp [h1, h2]
    rw [parseParamInt_increment p fuel minv maxv step hOnly hMin hm hM
      (not_lt.mpr hle) hstep2 (by omega) hmode]
    have hcnt : (if maxv < minv then 0
        else (maxv - minv).toNat / step.toNat + 1) < fuel := by
      rw [if_neg (not_lt.mpr hle)]; exact hfuel
    rw [incLoop_spec p.Name p.«Type» maxv step hpos fuel minv [] hcnt]
    simp only [List.nil_append, incValues, if_neg (not_lt.mpr hle)]
  · intro minv maxv step hpos hle
    have hD : (((maxv - minv).toNat : Int)) = maxv - minv :=
      Int.toNat_of_nonneg (by omega)
    have hs : ((step.toNat : Int)) = step := Int.toNat_of_nonneg (by omega)
    have hst : 0 < step.toNat := by omega
    constructor
    · intro k hk
      have hk2 : k ≤ (maxv - minv).toNat / step.toNat := by omega
      have hmul : k * step.toNat ≤ (maxv - minv).toNat :=
        (Nat.le_div_iff_mul_le hst).mp hk2
      have : (k : Int) * step ≤ maxv - minv := by
        calc (k : Int) * step = ((k * step.toNat : Nat) : Int) := by
              push_cast [hs]; ring
          _ ≤ ((maxv - minv).toNat : Int) := by exact_mod_cast hmul
          _ = maxv - minv := hD
      linarith
    · have hdm := Nat.div_add_mod (maxv - minv).toNat step.toNat
      have hmod := Nat.mod_lt (maxv - minv).toNat hst
      have hexp : step.toNat * ((maxv - minv).toNat / step.toNat + 1)
          = step.toNat * ((maxv - minv).toNat / step.toNat) + step.toNat := by
        ring
      have hnat : (maxv - minv).toNat <
          step.toNat * ((maxv - minv).toNat / step.toNat + 1) := by
        linarith [hdm, hmod, hexp]
      have : maxv - minv <
          step * (((maxv - minv).toNat / step.toNat + 1 : Nat) : Int) := by
        calc maxv - minv = ((maxv - minv).toNat : Int) := hD.symm
          _ < ((step.toNat * ((maxv - minv).toNat / step.toNat + 1) : Nat) : Int) := by
              exact_mod_cast hnat
          _ = step * (((maxv - minv).toNat / step.toNat + 1 : Nat) : Int) := by
              push_cast [hs]; ring
      linarith
  · intro p fuel minv maxv step hOnly hMin hm hM hle h1 h2 hneg hmode
    have hstep2 : (if p.Step ≠ "" then atoi p.Step else some 1) = some step := by
      simp [h1, h2]
    rw [parseParamInt_increment p fuel minv maxv step hOnly hMin hm hM
      (not_lt.mpr hle) hstep2 (by omega) hmode]
    rw [incLoop_nonpos_none p.Name p.«Type» maxv step (by omega) fuel minv [] hle]

/-- C7 witness: the amended theorem applied at min=0, max=4, step=2 with
fuel 10, and at step=-2 (divergence) with fuel 7. -/
theorem C7_increment_range_witness :
    parseParamInt 10 ⟨"x", "integer", "", [], "0", "4", "2", ""⟩ =
      some (.ok (incValues "x" "integer" 0 4 2)) ∧
    parseParamInt 7 ⟨"x", "integer", "", [], "0", "4", "-2", ""⟩ = none := by
  constructor
  · exact C7_increment_range.1 ⟨"x", "integer", "", [], "0", "4", "2", ""⟩ 10
      0 4 2 rfl (by decide) rfl rfl (by decide)
      (Or.inr ⟨by decide, rfl⟩) (by decide) (Or.inl rfl) (by decide)
  · exact C7_increment_range.2.2.1 ⟨"x", "integer", "", [], "0", "4", "-2", ""⟩ 7
      0 4 (-2) rfl (by decide) rfl rfl (by decide)
      (by decide) (by decide) (by decide) (Or.inl rfl)

/-- C7 counterexample to the claim as stated: with the non-zero (but
negative) step -1 and min=0 ≤ max=4, the source's increment loop never
returns any value list at any fuel, so the expansion does not yield
the claimed progression. -/
theorem C7_increment_counterexample :
    ¬ ∃ (fuel : Nat) (l : List TaskParam),
      parseParamInt fuel ⟨"x", "integer", "", [], "0", "4", "-1", ""⟩ =
        some (.ok l) := by
  rintro ⟨fuel, l, h⟩
  rw [parseParamInt_increment ⟨"x", "integer", "", [], "0", "4", "-1", ""⟩ fuel
    0 4 (-1) rfl (by decide) rfl rfl (by decide) (by simp [atoi]) (by decide)
    (Or.inl rfl)] at h
  rw [incLoop_nonpos_none "x" "integer" 4 (-1) (by decide) fuel 0 [] (by decide)] at h
  exact Option.noConfusion h

/-- C6 (amended): the source's power-mode loop does **not** terminate:
its post statement discards the computed power and never updates the
loop variable, so for any parsable min ≤ max and valid step the loop
runs forever (returns no result at any fuel).  It does not behave as
increment mode with step 1. -/
theorem C6_power_loop_diverges :
    ∀ (p : JobParam) (fuel : Nat) (minv maxv step : Int),
      p.Only = [] → p.Min ≠ "" →
      atoi p.Min = some minv → atoi p.Max = some maxv → minv ≤ maxv →
      ((p.Step = "" ∧ step = 1) ∨ (p.Step ≠ "" ∧ atoi p.Step = some step)) →
      step ≠ 0 →
      p.StepMode = "power" →
      parseParamInt fuel p = none := by
  intro p fuel minv maxv step hOnly hMin hm hM hle hstep hs0 hmode
  have hstep2 : (if p.Step ≠ "" then atoi p.Step else some 1) = some step := by
    rcases hstep with ⟨h1, h2⟩ | ⟨h1, h2⟩
    · simp [h1, h2]
    · simp [h1, h2]
  rw [parseParamInt_power p fuel minv maxv step hOnly hMin hm hM
    (not_lt.mpr hle) hstep2 hs0 hmode]
  rw [powLoop_not_term p.Name p.«Type» maxv fuel minv [] hle]

/-- C6 witness: the amended theorem applied at min=1, max=3, step=2 in
power mode with fuel 100: no result. -/
theorem C6_power_loop_diverges_witness :
    parseParamInt 100 ⟨"x", "integer", "", [], "1", "3", "2", "power"⟩ = none :=
  C6_power_loop_diverges ⟨"x", "integer", "", [], "1", "3", "2", "power"⟩ 100
    1 3 2 rfl (by decide) rfl rfl (by decide)
    (Or.inr ⟨by decide, rfl⟩) (by decide) rfl

/-- C6 counterexample to the claim as stated: for min=1, max=3, step=2
in power mode the claim predicts termination with the increment-step-1
values "1","2","3"; the source loop never returns at any fuel, and in
particular never that list. -/
theorem C6_power_counterexample :
    ¬ ∃ (fuel : Nat) (l : List TaskParam),
      parseParamInt fuel ⟨"x", "integer", "", [], "1", "3", "2", "power"⟩ =
        some (.ok l) := by
  rintro ⟨fuel, l, h⟩
  rw [parseParamInt_power ⟨"x", "integer", "", [], "1", "3", "2", "power"⟩
    fuel 1 3 2 rfl (by decide) rfl rfl (by decide) (by simp [atoi])
    (by decide) rfl] at h
  rw [powLoop_not_term "x" "integer" 3 fuel 1 [] (by decide)] at h
  exact Option.noConfusion h

/-- C5: the spec mandates the geometric progression min, min*step,
min*step^2, ... ≤ max for power mode (for min=1, max=4, step=2: values
1, 2, 4), but the source's power-mode loop is an infinite loop — the
loop variable is never updated — so the expansion never returns at any
fuel.  This is the code bug the spec's design note describes. -/
theorem C5_power_mode_code_bug :
    ∀ fuel : Nat,
      parseParamInt fuel ⟨"x", "integer", "", [], "1", "4", "2", "power"⟩ =
        none := by
  intro fuel
  rw [parseParamInt_power ⟨"x", "integer", "", [], "1", "4", "2", "power"⟩
    fuel 1 4 2 rfl (by decide) rfl rfl (by decide) (by simp [atoi])
    (by decide) rfl]
  rw [powLoop_not_term "x" "integer" 4 fuel 1 [] (by decide)]

/-- Every parameter the increment loop appends carries the declared
name. -/
lemma incLoop_mem (name ty : String) (maxv step : Int) :
    ∀ (fuel : Nat) (i : Int) (acc l : List TaskParam),
    incLoop name ty maxv step fuel i acc = some l →
    ∀ p ∈ l, p ∈ acc ∨ p.Name = name := by
  intro fuel
  induction fuel with
  | zero => intro i acc l h; exact absurd h (by simp [incLoop])
  | succ fuel ih =>
    intro i acc l h
    by_cases hle : i ≤ maxv
    · simp only [incLoop, if_pos hle] at h
      intro p hp
      rcases ih _ _ _ h p hp with hmem | hname
      · rcases List.mem_append.mp hmem with h1 | h2
        · exact Or.inl h1
        · right
          rw [List.mem_singleton.mp h2]
      · exact Or.inr hname
    · simp only [incLoop, if_neg hle, Option.some.injEq] at h
      subst h
      intro p hp
      exact Or.inl hp

/-- Every parameter the power loop appends carries the declared name. -/
lemma powLoop_mem (name ty : String) (maxv : Int) :
    ∀ (fuel : Nat) (i : Int) (acc l : List TaskParam),
    powLoop name ty maxv fuel i acc = some l →
    ∀ p ∈ l, p ∈ acc ∨ p.Name = name := by
  intro fuel
  induction fuel with
  | zero => intro i acc l h; exact absurd h (by simp [powLoop])
  | succ fuel ih =>
    intro i acc l h
    by_cases hle : i ≤ maxv
    · simp only [powLoop, if_pos hle] at h
      intro p hp
      rcases ih _ _ _ h p hp with hmem | hname
      · rcases List.mem_append.mp hmem with h1 | h2
        · exact Or.inl h1
        · right
          rw [List.mem_singleton.mp h2]
      · exact Or.inr hname
    · simp only [powLoop, if_neg hle, Option.some.injEq] at h
      subst h
      intro p hp
      exact Or.inl hp

/-- Every parameter emitted by `parseParamStr` carries the declared
name. -/
lemma parseParamStr_names (param : JobParam) (ps : List TaskParam)
    (h : parseParamStr param = .ok ps) :
    ∀ p ∈ ps, p.Name = param.Name := by
  unfold parseParamStr at h
  split at h
  · simp only [Except.ok.injEq] at h
    subst h
    intro p hp
    obtain ⟨v, _, rfl⟩ := List.mem_map.mp hp
    rfl
  · split at h
    · simp only [Except.ok.injEq] at h
      subst h
      intro p hp
      rw [List.mem_singleton.mp hp]
    · simp only [Except.ok.injEq] at h
      subst h
      intro p hp
      exact absurd hp (List.not_mem_nil p)

/-- Every parameter emitted by `parseParamInt` carries the declared
name. -/
lemma parseParamInt_names (fuel : Nat) (param : JobParam) (ps : List TaskParam)
    (h : parseParamInt fuel param = some (.ok ps)) :
    ∀ p ∈ ps, p.Name = param.Name := by
  unfold parseParamInt at h
  split at h
  · simp only [Option.some.injEq, Except.ok.injEq] at h
    subst h
    intro p hp
    obtain ⟨v, _, rfl⟩ := List.mem_map.mp hp
    rfl
  · split at h
    · split at h
      · simp at h
      · split at h
        · simp at h
        · split at h
          · simp at h
          · split at h
            · simp at h
            · split at h
              · simp at h
              · split at h
                · split at h
                  · simp at h
                  · rename_i params heq
                    simp only [Option.some.injEq, Except.ok.injEq] at h
                    subst h
                    intro p hp
                    rcases incLoop_mem _ _ _ _ _ _ _ _ heq p hp with h0 | h0
                    · exact absurd h0 (List.not_mem_nil p)
                    · exact h0
                · split at h
                  · split at h
                    · simp at h
                    · rename_i params heq
                      simp only [Option.some.injEq, Except.ok.injEq] at h
                      subst h
                      intro p hp
                      rcases powLoop_mem _ _ _ _ _ _ _ heq p hp with h0 | h0
                      · exact absurd h0 (List.not_mem_nil p)
                      · exact h0
                  · simp at h
    · split at h
      · simp only [Option.some.injEq, Except.ok.injEq] at h
        subst h
        intro p hp
        rw [List.mem_singleton.mp hp]
      · simp only [Option.some.injEq, Except.ok.injEq] at h
        subst h
        intro p hp
        exact absurd hp (List.not_mem_nil p)

/-- Every parameter emitted by `paramPermutations` carries the declared
name. -/
lemma paramPermutations_names (fuel : Nat) (param : JobParam)
    (ps : List TaskParam)
    (h : paramPermutations fuel param = some (.ok ps)) :
    ∀ p ∈ ps, p.Name = param.Name := by
  unfold paramPermutations at h
  split at h
  · simp only [Option.some.injEq] at h
    exact parseParamStr_names param ps h
  · split at h
    · exact parseParamInt_names fuel param ps h
    · split at h
      · exact parseParamInt_names fuel param ps h
      · simp at h

/-- The pop-then-push step of `Job.nextTask`'s loop (src/job/job.go
lines 306-313) always replaces the slot for the current declaration:
whether `curr` still lacks the slot or holds the previous sibling value,
the loop body continues with `curr0 ++ [p]`. -/
lemma nextTask_curr_step (curr0 curr : List TaskParam) (p : TaskParam)
    (dName : String) (hp : p.Name = dName)
    (hl : ∀ l, curr0.getLast? = some l → l.Name ≠ dName)
    (hcur : curr = curr0 ∨ ∃ q : TaskParam, q.Name = dName ∧ curr = curr0 ++ [q]) :
    (match curr.getLast? with
      | some last => if last.Name = p.Name then curr.dropLast else curr
      | none => curr) ++ [p] = curr0 ++ [p] := by
  rcases hcur with rfl | ⟨q, hq, rfl⟩
  · cases hlast : curr.getLast? with
    | none => rfl
    | some l =>
      have : ¬ l.Name = p.Name := by rw [hp]; exact hl l hlast
      simp only [hlast, if_neg this]
  · rw [List.getLast?_concat]
    have : q.Name = p.Name := by rw [hq, hp]
    simp only [if_pos this, List.dropLast_concat]

/-- The leaf case of `Job.nextTask`'s loop (last declaration): one task
is appended per value of the current declaration, in order. -/
lemma nextTaskLoop_leaf (fuel : Nat) (j : Job) (dName : String) :
    ∀ (ps : List TaskParam) (curr0 curr : List TaskParam) (tasks : List Task),
    (∀ p ∈ ps, p.Name = dName) →
    (∀ l, curr0.getLast? = some l → l.Name ≠ dName) →
    (curr = curr0 ∨ ∃ q : TaskParam, q.Name = dName ∧ curr = curr0 ++ [q]) →
    nextTaskLoop fuel j [] ps curr tasks =
      some (.ok (tasks ++ ps.map
        (fun p => mkTask j (padAssign j.Params.length (curr0 ++ [p]))))) := by
  intro ps
  induction ps with
  | nil => intro curr0 curr tasks _ _ _; simp [nextTaskLoop]
  | cons p ps1 ih =>
    intro curr0 curr tasks hnames hl hcur
    have hp : p.Name = dName := hnames p (List.mem_cons_self p ps1)
    have hstep := nextTask_curr_step curr0 curr p dName hp hl hcur
    simp only [nextTaskLoop, hstep, if_pos rfl]
    rw [ih curr0 (curr0 ++ [p]) _
      (fun q hq => hnames q (List.mem_cons_of_mem p hq)) hl
      (Or.inr ⟨p, hp, rfl⟩)]
    simp

/-- The non-leaf case of `Job.nextTask`'s loop: the tasks of the deeper
recursion are concatenated per value of the current declaration, in
order. -/
lemma nextTaskLoop_node (fuel : Nat) (j : Job) (dName : String)
    (ds : List JobParam) (hds : ¬ ds = [])
    (emitRest : List TaskParam → List Task) :
    ∀ (ps : List TaskParam) (curr0 curr : List TaskParam) (tasks : List Task),
    (∀ p ∈ ps, p.Name = dName) →
    (∀ l, curr0.getLast? = some l → l.Name ≠ dName) →
    (curr = curr0 ∨ ∃ q : TaskParam, q.Name = dName ∧ curr = curr0 ++ [q]) →
    (∀ p ∈ ps, nextTask fuel j ds (curr0 ++ [p]) [] =
      some (.ok (emitRest (curr0 ++ [p])))) →
    nextTaskLoop fuel j ds ps curr tasks =
      some (.ok (tasks ++ ps.flatMap (fun p => emitRest (curr0 ++ [p])))) := by
  intro ps
  induction ps with
  | nil => intro curr0 curr tasks _ _ _ _; simp [nextTaskLoop]
  | cons p ps1 ih =>
    intro curr0 curr tasks hnames hl hcur hGo
    have hp : p.Name = dName := hnames p (List.mem_cons_self p ps1)
    have hstep := nextTask_curr_step curr0 curr p dName hp hl hcur
    simp only [nextTaskLoop, hstep, if_neg hds, hGo p (List.mem_cons_self p ps1)]
    rw [ih curr0 (curr0 ++ [p]) _
      (fun q hq => hnames q (List.mem_cons_of_mem p hq)) hl
      (Or.inr ⟨p, hp, rfl⟩)
      (fun q hq => hGo q (List.mem_cons_of_mem p hq))]
    simp

/-- The cartesian product of a single value list: one singleton
assignment per value. -/
lemma prodAssign_single (ps : List TaskParam) :
    prodAssign [ps] = ps.map (fun p => [p]) := by
  induction ps with
  | nil => rfl
  | cons p ps ih =>
    simp only [prodAssign, List.flatMap_cons, List.map_cons, List.map_nil] at ih ⊢
    rw [ih]
    rfl

/-- `Job.nextTask` computes the declaration-order cartesian product:
given the per-declaration value lists, the emitted tasks are the
lexicographic-by-position product (rightmost declaration fastest),
each appended after `tasks` and extended from `curr`. -/
lemma nextTask_prod (fuel : Nat) (j : Job) :
    ∀ (ds : List JobParam) (pss : List (List TaskParam))
      (curr : List TaskParam) (tasks : List Task),
    ds ≠ [] →
    List.Forall₂ (fun d ps => paramPermutations fuel d = some (.ok ps) ∧
      ∀ p ∈ ps, p.Name = d.Name) ds pss →
    (∀ l, curr.getLast? = some l → l.Name ∉ ds.map JobParam.Name) →
    (ds.map JobParam.Name).Nodup →
    nextTask fuel j ds curr tasks =
      some (.ok (tasks ++ (prodAssign pss).map
        (fun a => mkTask j (padAssign j.Params.length (curr ++ a))))) := by
  intro ds
  induction ds with
  | nil => intro pss curr tasks h; exact absurd rfl h
  | cons d ds1 ih =>
    intro pss curr tasks _ hall hlast hnd
    cases hall
    rename_i ps pss1 hhead htail
    obtain ⟨hperm, hnames⟩ := hhead
    simp only [nextTask, hperm]
    by_cases hds1 : ds1 = []
    · subst hds1
      cases htail
      rw [nextTaskLoop_leaf fuel j d.Name ps curr curr tasks hnames
        (fun l hle hn => hlast l hle (by simp [hn])) (Or.inl rfl)]
      rw [prodAssign_single, List.map_map]
      rfl
    · have hnd1 : (ds1.map JobParam.Name).Nodup := (List.nodup_cons.mp hnd).2
      have hdn : d.Name ∉ ds1.map JobParam.Name := (List.nodup_cons.mp hnd).1
      rw [nextTaskLoop_node fuel j d.Name ds1 hds1
        (fun c => (prodAssign pss1).map
          (fun a => mkTask j (padAssign j.Params.length (c ++ a))))
        ps curr curr tasks hnames
        (fun l hle hn => hlast l hle (by simp [hn]))
        (Or.inl rfl)
        (fun p hp => by
          rw [ih pss1 (curr ++ [p]) [] hds1 htail
            (fun l hle => by
              rw [List.getLast?_concat] at hle
              cases hle
              rw [hnames p hp]
              exact hdn)
            hnd1]
          simp)]
      simp only [prodAssign, List.map_flatMap, List.map_map]
      have hfun : ∀ p : TaskParam,
          List.map (fun a => mkTask j (padAssign j.Params.length (curr ++ [p] ++ a)))
            (prodAssign pss1)
          = List.map ((fun a => mkTask j (padAssign j.Params.length (curr ++ a))) ∘
              (fun a => p :: a)) (prodAssign pss1) := by
        intro p
        apply List.map_congr_left
        intro a _
        simp only [Function.comp_apply]
        rw [← List.append_cons]
      congr 2
      exact congrArg (fun F => tasks ++ ps.flatMap F) (funext hfun)

/-- Every assignment in the cartesian product has one entry per
factor. -/
lemma prodAssign_mem_length :
    ∀ (pss : List (List TaskParam)) (a : List TaskParam),
    a ∈ prodAssign pss → a.length = pss.length := by
  intro pss
  induction pss with
  | nil =>
    intro a ha
    simp only [prodAssign, List.mem_singleton] at ha
    subst ha
    rfl
  | cons ps pss ih =>
    intro a ha
    simp only [prodAssign, List.mem_flatMap, List.mem_map] at ha
    obtain ⟨v, _, b, hb, rfl⟩ := ha
    simp [ih b hb]

/-- Every assignment in the cartesian product lists the declared names
in declaration order. -/
lemma prodAssign_mem_names :
    ∀ (ds : List JobParam) (pss : List (List TaskParam)),
    List.Forall₂ (fun d ps => ∀ p ∈ ps, p.Name = d.Name) ds pss →
    ∀ a ∈ prodAssign pss, a.map TaskParam.Name = ds.map JobParam.Name := by
  intro ds pss h
  induction h with
  | nil =>
    intro a ha
    simp only [prodAssign, List.mem_singleton] at ha
    subst ha
    rfl
  | @cons d ps ds1 pss1 hhead htail ih =>
    intro a ha
    simp only [prodAssign, List.mem_flatMap, List.mem_map] at ha
    obtain ⟨v, hv, b, hb, rfl⟩ := ha
    simp [ih b hb, hhead v hv]

/-- Padding is the identity on full-length assignments. -/
lemma padAssign_self (n : Nat) (curr : List TaskParam)
    (h : curr.length = n) : padAssign n curr = curr := by
  subst h
  simp [padAssign]

/-- C1: for every job with a nonempty list of parameter declarations
with pairwise-distinct names whose per-declaration expansions all
succeed, `Job.tasks` emits exactly the declaration-order,
lexicographic-by-position cartesian product (rightmost declaration
varies fastest), and every emitted assignment has exactly one
(name, type, value) triple per declared parameter, in declaration
order.  In particular (second conjunct) for integer `x` with
`only=[1,2]` and `y` with `only=[10,20]` the order is (x=1,y=10),
(x=1,y=20), (x=2,y=10), (x=2,y=20). -/
theorem C1_expansion_order :
    (∀ (fuel : Nat) (j : Job) (pss : List (List TaskParam)),
      j.Params ≠ [] →
      (j.Params.map JobParam.Name).Nodup →
      List.Forall₂ (fun d ps => paramPermutations fuel d = some (.ok ps))
        j.Params pss →
      jobTasks fuel j = some (.ok ((prodAssign pss).map (mkTask j))) ∧
      ∀ a ∈ prodAssign pss,
        a.map TaskParam.Name = j.Params.map JobParam.Name) ∧
    jobTasks 5 exJob = some (.ok
      [mkTask exJob [⟨"x", "integer", "1"⟩, ⟨"y", "integer", "10"⟩],
       mkTask exJob [⟨"x", "integer", "1"⟩, ⟨"y", "integer", "20"⟩],
       mkTask exJob [⟨"x", "integer", "2"⟩, ⟨"y", "integer", "10"⟩],
       mkTask exJob [⟨"x", "integer", "2"⟩, ⟨"y", "integer", "20"⟩]]) := by
  have main : ∀ (fuel : Nat) (j : Job) (pss : List (List TaskParam)),
      j.Params ≠ [] →
      (j.Params.map JobParam.Name).Nodup →
      List.Forall₂ (fun d ps => paramPermutations fuel d = some (.ok ps))
        j.Params pss →
      jobTasks fuel j = some (.ok ((prodAssign pss).map (mkTask j))) ∧
      ∀ a ∈ prodAssign pss,
        a.map TaskParam.Name = j.Params.map JobParam.Name := by
    intro fuel j pss hne hnd hall
    have hall2 : List.Forall₂ (fun d ps =>
        paramPermutations fuel d = some (.ok ps) ∧
        ∀ p ∈ ps, p.Name = d.Name) j.Params pss :=
      hall.imp (fun d ps h => ⟨h, paramPermutations_names _ _ _ h⟩)
    have hnames : List.Forall₂ (fun d ps => ∀ p ∈ ps, p.Name = d.Name)
        j.Params pss :=
      hall2.imp (fun d ps h => h.2)
    have hlen : pss.length = j.Params.length := (hall.length_eq).symm
    constructor
    · rw [jobTasks, nextTask_prod fuel j j.Params pss [] [] hne hall2
        (fun l hl => by simp at hl) hnd]
      simp only [List.nil_append]
      congr 2
      apply List.map_congr_left
      intro a ha
      rw [padAssign_self]
      rw [prodAssign_mem_length pss a ha, hlen]
    · exact prodAssign_mem_names j.Params pss hnames
  refine ⟨main, ?_⟩
  have h := (main 5 exJob
    [[⟨"x", "integer", "1"⟩, ⟨"x", "integer", "2"⟩],
     [⟨"y", "integer", "10"⟩, ⟨"y", "integer", "20"⟩]]
    (by decide) (by decide)
    (List.Forall₂.cons rfl (List.Forall₂.cons rfl List.Forall₂.nil))).1
  rw [h]
  rfl

/-- C1 witness: the order theorem applied to the two-declaration
example job, with all hypotheses discharged concretely. -/
theorem C1_expansion_order_witness :
    jobTasks 5 exJob = some (.ok ((prodAssign
      [[⟨"x", "integer", "1"⟩, ⟨"x", "integer", "2"⟩],
       [⟨"y", "integer", "10"⟩, ⟨"y", "integer", "20"⟩]]).map (mkTask exJob))) ∧
    ([⟨"x", "integer", "1"⟩, ⟨"y", "integer", "10"⟩] : List TaskParam).map
        TaskParam.Name = exJob.Params.map JobParam.Name := by
  have h := C1_expansion_order.1 5 exJob
    [[⟨"x", "integer", "1"⟩, ⟨"x", "integer", "2"⟩],
     [⟨"y", "integer", "10"⟩, ⟨"y", "integer", "20"⟩]]
    (by decide) (by decide)
    (List.Forall₂.cons rfl (List.Forall₂.cons rfl List.Forall₂.nil))
  exact ⟨h.1, h.2 _ (by decide)⟩

/-!
Validation of the MD5 model against the RFC 1321 / standard test
vectors, so that `Task.UUID` below really computes MD5.
-/

example : md5Hex (strBytes "") = "d41d8cd98f00b204e9800998ecf8427e" := by
  decide

example : md5Hex (strBytes "abc") = "900150983cd24fb0d6963f7d28e17f72" := by
  decide

example : md5Hex (strBytes "The quick brown fox jumps over the lazy dog") =
    "9e107d9d372bb6826bd81d3542a419d6" := by
  decide

example : md5Hex (strBytes "x=1\ny=10\n") = "a21f555888ab39a5d0f19bb891973fbd" := by
  decide

/-- A `getD` lookup into a list containing its default stays in the
list. -/
lemma getD_mem_of_default_mem {α : Type} [Inhabited α] (l : List α) (n : Nat)
    (d : α) (hd : d ∈ l) : l.getD n d ∈ l := by
  rcases Nat.lt_or_ge n l.length with h | h
  · rw [List.getD_eq_getElem l d h]
    exact List.getElem_mem h
  · rw [List.getD_eq_default l d h]
    exact hd

/-- Every character `md5Hex` emits is a lowercase hex digit. -/
lemma md5Hex_chars (msg : List Nat) : ∀ c ∈ (md5Hex msg).data, c ∈ hexChars := by
  intro c hc
  simp only [md5Hex] at hc
  rcases List.mem_flatMap.mp hc with ⟨b, _, hcb⟩
  simp only [byteHex, List.mem_cons, List.mem_singleton] at hcb
  have h0 : '0' ∈ hexChars := by decide
  rcases hcb with rfl | rfl | h
  · exact getD_mem_of_default_mem _ _ _ h0
  · exact getD_mem_of_default_mem _ _ _ h0
  · exact absurd h (List.not_mem_nil c)

/-- C4: for a task whose uuid cache is still the Go zero value (as all
tasks created by the expander are), `Task.UUID` is the lowercase hex
digest of the MD5 of the concatenation, in parameter order, of the
lines "{name}={value}\n" (first conjunct); every character of it is a
lowercase hex digit (second conjunct); and it is a pure function of the
(name, value) pairs in order, so two tasks with identical parameter
assignments have equal uuids (third conjunct). -/
theorem C4_uuid_md5 :
    (∀ t : Task, t.uuid = "" →
      t.UUID = md5Hex (strBytes (String.join (t.Params.map
        (fun param => param.Name ++ "=" ++ param.Value ++ "\n"))))) ∧
    (∀ t : Task, t.uuid = "" → ∀ c ∈ (t.UUID).data, c ∈ hexChars) ∧
    (∀ t1 t2 : Task, t1.uuid = "" → t2.uuid = "" →
      t1.Params.map (fun param => (param.Name, param.Value)) =
        t2.Params.map (fun param => (param.Name, param.Value)) →
      t1.UUID = t2.UUID) := by
  have hseed : ∀ t1 t2 : Task,
      t1.Params.map (fun param => (param.Name, param.Value)) =
        t2.Params.map (fun param => (param.Name, param.Value)) →
      t1.uuidSeed = t2.uuidSeed := by
    intro t1 t2 hp
    have hjoin := congrArg
      (List.map (fun q : String × String => q.1 ++ "=" ++ q.2 ++ "\n")) hp
    simp only [List.map_map] at hjoin
    unfold Task.uuidSeed
    exact congrArg String.join hjoin
  refine ⟨?_, ?_, ?_⟩
  · intro t h
    simp [Task.UUID, Task.uuidSeed, h]
  · intro t h
    rw [Task.UUID, if_pos h]
    exact md5Hex_chars _
  · intro t1 t2 h1 h2 hp
    rw [Task.UUID, if_pos h1, Task.UUID, if_pos h2, hseed t1 t2 hp]

/-- C4 witness: two concrete tasks with the same (name, value) pairs
but different type tags and the theorem's consequences at them. -/
theorem C4_uuid_md5_witness :
    (Task.UUID ⟨[⟨"x", "integer", "1"⟩, ⟨"y", "integer", "10"⟩], [], [], ""⟩
      = md5Hex (strBytes "x=1\ny=10\n")) ∧
    (Task.UUID ⟨[⟨"x", "integer", "1"⟩, ⟨"y", "integer", "10"⟩], [], [], ""⟩
      = Task.UUID ⟨[⟨"x", "int", "1"⟩, ⟨"y", "int", "10"⟩], [], [], ""⟩) ∧
    'a' ∈ hexChars := by
  refine ⟨?_, ?_, ?_⟩
  · have h := C4_uuid_md5.1
      ⟨[⟨"x", "integer", "1"⟩, ⟨"y", "integer", "10"⟩], [], [], ""⟩ rfl
    rw [h]
    rfl
  · exact C4_uuid_md5.2.2
      ⟨[⟨"x", "integer", "1"⟩, ⟨"y", "integer", "10"⟩], [], [], ""⟩
      ⟨[⟨"x", "int", "1"⟩, ⟨"y", "int", "10"⟩], [], [], ""⟩ rfl rfl (by decide)
  · have h := C4_uuid_md5.2.1
      ⟨[⟨"x", "integer", "1"⟩, ⟨"y", "integer", "10"⟩], [], [], ""⟩ rfl
    exact h 'a' (by decide)

/-- The `cores = 0` rewrite of `NewJob`, as a per-run function. -/
lemma checkRunCores_ok (cpus : Nat) :
    ∀ runs : List Run, (∀ r ∈ runs, ¬ r.Cores > (cpus : Int)) →
    checkRunCores cpus runs =
      .ok (runs.map (fun r => if r.Cores = 0 then { r with Cores := 1 } else r)) := by
  intro runs
  induction runs with
  | nil => intro _; rfl
  | cons r rs ih =>
    intro hall
    simp only [checkRunCores, if_neg (hall r (List.mem_cons_self r rs))]
    rw [ih (fun q hq => hall q (List.mem_cons_of_mem r hq))]
    simp only [List.map_cons]

/-- `NewJob`'s inner loop errors as soon as some run wants more cores
than the pool holds. -/
lemma checkRunCores_error (cpus : Nat) :
    ∀ runs : List Run, (∃ r ∈ runs, r.Cores > (cpus : Int)) →
    ∃ e, checkRunCores cpus runs = .error e := by
  intro runs
  induction runs with
  | nil => rintro ⟨r, hr, _⟩; exact absurd hr (List.not_mem_nil r)
  | cons r rs ih =>
    rintro ⟨q, hq, hqc⟩
    by_cases hr : r.Cores > (cpus : Int)
    · exact ⟨"Run has too many cores", by simp [checkRunCores, if_pos hr]⟩
    · rcases List.mem_cons.mp hq with rfl | hq2
      · exact absurd hqc hr
      · obtain ⟨e, he⟩ := ih ⟨q, hq2, hqc⟩
        refine ⟨e, ?_⟩
        simp [checkRunCores, if_neg hr, he]

/-- Runs with non-zero core counts are fixed points of the rewrite. -/
lemma norm_runs_id :
    ∀ runs : List Run, (∀ r ∈ runs, r.Cores ≠ 0) →
    runs.map (fun r => if r.Cores = 0 then { r with Cores := 1 } else r) = runs := by
  intro runs
  induction runs with
  | nil => intro _; rfl
  | cons r rs ih =>
    intro hall
    simp only [List.map_cons, if_neg (hall r (List.mem_cons_self r rs))]
    rw [ih (fun q hq => hall q (List.mem_cons_of_mem r hq))]

/-- After one successful pass, `NewJob`'s loop is stable: every further
task is initialized with the same normalized runs. -/
lemma newJobLoop_stable (cpus : Nat) (runs1 : List Run)
    (hstable : checkRunCores cpus runs1 = .ok runs1) :
    ∀ (ts : List Task) (acc : List InitTask),
    newJobLoop cpus ts runs1 acc =
      .ok (runs1, acc ++ ts.map (fun t => ⟨t, runs1⟩)) := by
  intro ts
  induction ts with
  | nil => intro acc; simp [newJobLoop]
  | cons t ts ih =>
    intro acc
    simp only [newJobLoop, hstable, ih, List.map_cons]
    rw [List.append_cons]
    simp

/-- The normalized runs of a pool-fitting job fit the pool and have
non-zero core counts (pool nonempty). -/
lemma norm_runs_bounds (cpus : Nat) (hcpus : 1 ≤ cpus) :
    ∀ runs : List Run, (∀ r ∈ runs, ¬ r.Cores > (cpus : Int)) →
    ∀ r ∈ runs.map (fun r => if r.Cores = 0 then { r with Cores := 1 } else r),
      r.Cores ≤ (cpus : Int) ∧ r.Cores ≠ 0 := by
  intro runs hall r hr
  obtain ⟨q, hq, rfl⟩ := List.mem_map.mp hr
  by_cases h0 : q.Cores = 0
  · rw [if_pos h0]
    constructor
    · show (1 : Int) ≤ (cpus : Int)
      exact_mod_cast hcpus
    · show (1 : Int) ≠ 0
      exact one_ne_zero
  · rw [if_neg h0]
    exact ⟨not_lt.mp (hall q hq), h0⟩

/-- C8 (amended): provided the job's expansion yields at least one task
and the pool is non-empty, load fails with a too-many-cores error
exactly when some run stage requests more cores than the pool size; on
success every stage with `cores = 0` has been rewritten to `cores = 1`,
every task's run queue holds exactly the normalized stages, and every
queued stage's core count is ≤ the pool size and non-zero. -/
theorem C8_cores_check :
    ∀ (fuel : Nat) (j : Job) (cfg : RuntimeConfig) (tasks : List Task),
    jobTasks fuel j = some (.ok tasks) → tasks ≠ [] → cfg.Cpus ≠ [] →
    ((∃ e, NewJob fuel j cfg = some (.error e)) ↔
      ∃ r ∈ j.Runs, r.Cores > (cfg.Cpus.length : Int)) ∧
    (∀ runs2 wait, NewJob fuel j cfg = some (.ok (runs2, wait)) →
      runs2 = j.Runs.map
        (fun r => if r.Cores = 0 then { r with Cores := 1 } else r) ∧
      wait = tasks.map (fun t => (⟨t, runs2⟩ : InitTask)) ∧
      ∀ it ∈ wait, ∀ r ∈ it.runs,
        r.Cores ≤ (cfg.Cpus.length : Int) ∧ r.Cores ≠ 0) := by
  intro fuel j cfg tasks hjt hne hcp
  have hn1 : 1 ≤ cfg.Cpus.length := List.length_pos.mpr hcp
  have hNJ : NewJob fuel j cfg =
      some (newJobLoop cfg.Cpus.length tasks j.Runs []) := by
    simp [NewJob, hjt]
  obtain ⟨t, ts, rfl⟩ : ∃ t ts, tasks = t :: ts := by
    cases tasks with
    | nil => exact absurd rfl hne
    | cons t ts => exact ⟨t, ts, rfl⟩
  by_cases hex : ∃ r ∈ j.Runs, r.Cores > (cfg.Cpus.length : Int)
  · obtain ⟨e, he⟩ := checkRunCores_error _ _ hex
    have hloop : newJobLoop cfg.Cpus.length (t :: ts) j.Runs [] = .error e := by
      simp [newJobLoop, he]
    constructor
    · exact ⟨fun _ => hex, fun _ => ⟨e, by rw [hNJ, hloop]⟩⟩
    · intro runs2 wait hok
      rw [hNJ, hloop] at hok
      simp at hok
  · have hnot : ∀ r ∈ j.Runs, ¬ r.Cores > (cfg.Cpus.length : Int) := by
      intro r hr hgt
      exact hex ⟨r, hr, hgt⟩
    have hck := checkRunCores_ok _ _ hnot
    have hbounds := norm_runs_bounds _ hn1 _ hnot
    have hstable : checkRunCores cfg.Cpus.length
        (j.Runs.map (fun r => if r.Cores = 0 then { r with Cores := 1 } else r)) =
        .ok (j.Runs.map (fun r => if r.Cores = 0 then { r with Cores := 1 } else r)) := by
      rw [checkRunCores_ok _ _ (fun r hr => not_lt.mpr (hbounds r hr).1)]
      rw [norm_runs_id _ (fun r hr => (hbounds r hr).2)]
    have hloop : newJobLoop cfg.Cpus.length (t :: ts) j.Runs [] =
        .ok (j.Runs.map (fun r => if r.Cores = 0 then { r with Cores := 1 } else r),
          (t :: ts).map (fun q => (⟨q,
            j.Runs.map (fun r => if r.Cores = 0 then { r with Cores := 1 } else r)⟩ :
              InitTask))) := by
      simp only [newJobLoop, hck]
      rw [newJobLoop_stable _ _ hstable]
      simp
    constructor
    · constructor
      · rintro ⟨e, hee⟩
        rw [hNJ, hloop] at hee
        simp at hee
      · intro hx
        exact absurd hx hex
    · intro runs2 wait hok
      rw [hNJ, hloop] at hok
      simp only [Option.some.injEq, Except.ok.injEq, Prod.mk.injEq] at hok
      obtain ⟨h1, h2⟩ := hok
      subst h1
      subst h2
      refine ⟨rfl, rfl, ?_⟩
      intro it hit r hr
      obtain ⟨q, _, rfl⟩ := List.mem_map.mp hit
      exact hbounds r hr

/-- C8 witness: a one-task job with stages of cores 0 and 1 on a
one-core pool does not fail load (no stage exceeds the pool). -/
theorem C8_cores_check_witness :
    ¬ ∃ e, NewJob 5 exJob8 ⟨[0], 0⟩ = some (.error e) := by
  have hjt : jobTasks 5 exJob8 =
      some (.ok [mkTask exJob8 [⟨"a", "string", "v"⟩]]) := by
    simp +decide [jobTasks, nextTask, nextTaskLoop, paramPermutations,
      parseParamStr, exJob8, mkTask, padAssign]
  have h := (C8_cores_check 5 exJob8 ⟨[0], 0⟩ _ hjt (by decide) (by decide)).1
  intro hx
  have hr := h.mp hx
  revert hr
  decide

/-- C8 counterexample to the claim as stated: a job document whose
expansion yields zero tasks loads successfully with its runs untouched,
although one stage requests 5 cores from a 1-core pool and another has
`cores = 0` (never rewritten to 1): the cores check lives inside the
per-task loop. -/
theorem C8_counterexample :
    NewJob 5 jobZeroTasks ⟨[0], 0⟩ = some (.ok (jobZeroTasks.Runs, [])) ∧
    (∃ r ∈ jobZeroTasks.Runs,
      r.Cores > ((RuntimeConfig.mk [0] 0).Cpus.length : Int)) ∧
    (∃ r ∈ jobZeroTasks.Runs, r.Cores = 0) := by
  refine ⟨?_, by decide, by decide⟩
  have hjt : jobTasks 5 jobZeroTasks = some (.ok []) := by
    simp +decide [jobTasks, nextTask, nextTaskLoop, paramPermutations,
      parseParamStr, jobZeroTasks]
  simp only [NewJob, hjt]
  rfl

/-- `parseParamStr` never reports an error. -/
lemma parseParamStr_no_error (p : JobParam) :
    ∃ ps, parseParamStr p = .ok ps := by
  unfold parseParamStr
  split
  · exact ⟨_, rfl⟩
  · split
    · exact ⟨_, rfl⟩
    · exact ⟨_, rfl⟩

/-- The exact error conditions of `parseParamInt`: unparsable min or
max, max < min, a present-but-unparsable-or-zero step, or an unknown
step mode — and nothing else (the range loops never produce errors). -/
lemma parseParamInt_error_iff (fuel : Nat) (p : JobParam) :
    (∃ e, parseParamInt fuel p = some (.error e)) ↔
    (if p.Only ≠ [] then false
     else if p.Min ≠ "" then
       match atoi p.Min with
       | none => true
       | some minv =>
         match atoi p.Max with
         | none => true
         | some maxv =>
           if maxv < minv then true
           else
             match (if p.Step ≠ "" then atoi p.Step else some 1) with
             | none => true
             | some st =>
               if st = 0 then true
               else
                 decide (p.StepMode ≠ "" ∧ p.StepMode ≠ "increment" ∧
                   p.StepMode ≠ "power")
     else false) = true := by
  unfold parseParamInt
  split
  · simp
  · split
    · cases hmin : atoi p.Min with
      | none => simp
      | some minv =>
        cases hmax : atoi p.Max with
        | none => simp
        | some maxv =>
          dsimp only
          split
          · simp
          · cases hstep : (if p.Step ≠ "" then atoi p.Step else some 1) with
            | none => simp
            | some st =>
              dsimp only
              split
              · simp
              · split
                · rename_i hmode
                  cases hinc : incLoop p.Name p.«Type» maxv st fuel minv [] with
                  | none =>
                    dsimp only
                    constructor
                    · rintro ⟨e, he⟩
                      exact absurd he (by simp)
                    · intro hd
                      rcases hmode with h | h <;> simp [h] at hd
                  | some params =>
                    dsimp only
                    constructor
                    · rintro ⟨e, he⟩
                      exact absurd he (by simp)
                    · intro hd
                      rcases hmode with h | h <;> simp [h] at hd
                · split
                  · rename_i hmode
                    cases hpow : powLoop p.Name p.«Type» maxv fuel minv [] with
                    | none =>
                      dsimp only
                      constructor
                      · rintro ⟨e, he⟩
                        exact absurd he (by simp)
                      · intro hd
                        simp [hmode] at hd
                    | some params =>
                      dsimp only
                      constructor
                      · rintro ⟨e, he⟩
                        exact absurd he (by simp)
                      · intro hd
                        simp [hmode] at hd
                  · rename_i hm1 hm2
                    simp only [decide_eq_true_eq]
                    constructor
                    · intro _
                      exact ⟨fun h => hm1 (Or.inl h), fun h => hm1 (Or.inr h),
                        fun h => hm2 h⟩
                    · intro _
                      exact ⟨_, rfl⟩
    · simp
      intro x
      split <;> simp

/-- C9 (amended): per-declaration expansion reports a load error, and
then yields no values, exactly when the declaration is invalid per
`declInvalid`: its type is none of "string", "int", "integer" (the
source also accepts "int"); or it is int/integer-typed with no `only`
values and a nonempty `min`, and its min or max does not parse, its max
is less than its min, its step is present but unparsable or zero, or
its step mode is unknown. -/
theorem C9_invalid_decl_errors :
    ∀ (fuel : Nat) (p : JobParam),
      ((∃ e, paramPermutations fuel p = some (.error e)) ↔
        declInvalid p = true) ∧
      (declInvalid p = true →
        ∀ ps, paramPermutations fuel p ≠ some (.ok ps)) := by
  have main : ∀ (fuel : Nat) (p : JobParam),
      (∃ e, paramPermutations fuel p = some (.error e)) ↔
      declInvalid p = true := by
    intro fuel p
    by_cases hstr : p.«Type» = "string"
    · simp only [paramPermutations, if_pos hstr, declInvalid, if_pos hstr]
      obtain ⟨ps, hps⟩ := parseParamStr_no_error p
      rw [hps]
      simp
    · by_cases hint : p.«Type» = "int" ∨ p.«Type» = "integer"
      · have hpp : paramPermutations fuel p = parseParamInt fuel p := by
          rcases hint with h | h <;> simp [paramPermutations, hstr, h]
        rw [hpp]
        simp only [declInvalid, if_neg hstr, if_pos hint]
        exact parseParamInt_error_iff fuel p
      · have h1 : ¬ p.«Type» = "int" := fun h => hint (Or.inl h)
        have h2 : ¬ p.«Type» = "integer" := fun h => hint (Or.inr h)
        simp only [paramPermutations, if_neg hstr, if_neg h1, if_neg h2,
          declInvalid, if_neg hint]
        simp
  intro fuel p
  refine ⟨main fuel p, ?_⟩
  intro hd ps hok
  obtain ⟨e, he⟩ := (main fuel p).mpr hd
  rw [he] at hok
  simp at hok

/-- C9 witness: a declaration with max < min is invalid, and its
expansion yields no value list. -/
theorem C9_invalid_decl_errors_witness :
    declInvalid ⟨"x", "integer", "", [], "1", "0", "", ""⟩ = true ∧
    paramPermutations 5 ⟨"x", "integer", "", [], "1", "0", "", ""⟩ ≠
      some (.ok []) :=
  ⟨by decide, (C9_invalid_decl_errors 5 ⟨"x", "integer", "", [], "1", "0", "", ""⟩).2
    (by decide) []⟩

/-- C9 counterexample to the claim as stated: a declaration of type
"int" (neither "string" nor "integer") with `only = ["1"]` expands
without error, although the claim says load errors exactly on such
types. -/
theorem C9_counterexample :
    paramPermutations 5 ⟨"x", "int", "", ["1"], "", "", "", ""⟩ =
      some (.ok [⟨"x", "int", "1"⟩]) ∧
    (⟨"x", "int", "", ["1"], "", "", "", ""⟩ : JobParam).«Type» ≠ "string" ∧
    (⟨"x", "int", "", ["1"], "", "", "", ""⟩ : JobParam).«Type» ≠ "integer" :=
  ⟨rfl, by decide, by decide⟩

/-- `getD` after an in-range `set` at the same index. -/
lemma getD_set_eq_or {α : Type} (l : List α) (i j : Nat) (x d : α) :
    (l.set i x).getD j d = x ∧ i = j ∧ i < l.length ∨
    (l.set i x).getD j d = l.getD j d := by
  by_cases hij : i = j
  · subst hij
    by_cases hl : i < l.length
    · left
      refine ⟨?_, rfl, hl⟩
      rw [List.getD_eq_getElem?_getD, List.getElem?_set_self hl]
      rfl
    · right
      rw [List.set_eq_of_length_le (Nat.le_of_not_lt hl)]
  · right
    rw [List.getD_eq_getElem?_getD, List.getElem?_set_ne hij,
      ← List.getD_eq_getElem?_getD]

/-- Every entry of the all-vacant initial Core Map is vacant. -/
lemma initState_core (qs : List (List Run)) (ncores : Nat) (c : Nat) :
    (initState qs ncores).core c = none := by
  simp only [initState, SchedState.core, List.getD_eq_getElem?_getD,
    List.getElem?_replicate]
  split <;> rfl

/-- One scheduler/supervisor transition preserves the per-task
uniqueness of Core Map entries together with its mid-dispatch
strengthening. -/
lemma step_coreUnique (uuid : Nat → String) (s s' : SchedState)
    (hstep : Step uuid s s')
    (hU : CoreUnique uuid s) (hD : DispUnique uuid s) :
    CoreUnique uuid s' ∧ DispUnique uuid s' := by
  cases hstep with
  | peekStage t st rest hdrv hw hq =>
    exact ⟨fun c1 c2 a1 a2 h1 h2 huuid => hU c1 c2 a1 a2 h1 h2 huuid,
      fun atr' toSet' hd' => by simp at hd'⟩
  | peekAbort t st hdrv =>
    exact ⟨fun c1 c2 a1 a2 h1 h2 huuid => hU c1 c2 a1 a2 h1 h2 huuid,
      fun atr' toSet' hd' => by simp at hd'⟩
  | scanDispatch t st cs hdrv hnd hlen hvac hexcl =>
    constructor
    · intro c1 c2 a1 a2 h1 h2 huuid
      exact hU c1 c2 a1 a2 h1 h2 huuid
    · intro atr' toSet' hd' c a hc huuid
      simp only [Driver.dispatching.injEq] at hd'
      obtain ⟨hatr, -⟩ := hd'
      subst hatr
      exact absurd huuid (hexcl c a hc)
  | setCore atr c rest hdrv hvac =>
    have hset : ∀ c1 a1,
        ({ s with
           cores := s.cores.set c (some atr),
           driver := Driver.dispatching atr rest } : SchedState).core c1 =
          some a1 →
        a1 = atr ∨ s.core c1 = some a1 := by
      intro c1 a1 h1
      simp only [SchedState.core] at h1
      rcases getD_set_eq_or s.cores c c1 (some atr) none with ⟨heq, -, -⟩ | heq
      · rw [h1] at heq
        exact Or.inl (Option.some.inj heq)
      · rw [heq] at h1
        exact Or.inr h1
    constructor
    · intro c1 c2 a1 a2 h1 h2 huuid
      rcases hset c1 a1 h1 with he1 | h1o
      · rcases hset c2 a2 h2 with he2 | h2o
        · rw [he1, he2]
        · rw [he1]
          exact (hD atr (c :: rest) hdrv c2 a2 h2o
            (by rw [← he1]; exact huuid.symm)).symm
      · rcases hset c2 a2 h2 with he2 | h2o
        · rw [he2]
          exact hD atr (c :: rest) hdrv c1 a1 h1o (by rw [← he2]; exact huuid)
        · exact hU c1 c2 a1 a2 h1o h2o huuid
    · intro atr' toSet' hd' c1 a1 h1 huuid
      simp only [Driver.dispatching.injEq] at hd'
      obtain ⟨hatr, -⟩ := hd'
      rcases hset c1 a1 h1 with he1 | h1o
      · rw [he1, hatr]
      · exact hD atr' (c :: rest) (by rw [hdrv, hatr]) c1 a1 h1o huuid
  | finishDispatch atr hdrv =>
    exact ⟨fun c1 c2 a1 a2 h1 h2 huuid => hU c1 c2 a1 a2 h1 h2 huuid,
      fun atr' toSet' hd' => by simp at hd'⟩
  | supReturn k atr failed hsup =>
    exact ⟨fun c1 c2 a1 a2 h1 h2 huuid => hU c1 c2 a1 a2 h1 h2 huuid,
      fun atr' toSet' hd' => hD atr' toSet' hd'⟩
  | supCancel k atr hsup =>
    exact ⟨fun c1 c2 a1 a2 h1 h2 huuid => hU c1 c2 a1 a2 h1 h2 huuid,
      fun atr' toSet' hd' => hD atr' toSet' hd'⟩
  | supSignal k atr ph hsup hph =>
    exact ⟨fun c1 c2 a1 a2 h1 h2 huuid => hU c1 c2 a1 a2 h1 h2 huuid,
      fun atr' toSet' hd' => hD atr' toSet' hd'⟩
  | supUnset k atr c pending hsup =>
    have hset : ∀ c1 a1,
        ({ s with
           cores := s.cores.set c none,
           sups := s.sups.set k ⟨atr, .signalled pending⟩ } : SchedState).core c1 =
          some a1 →
        s.core c1 = some a1 := by
      intro c1 a1 h1
      simp only [SchedState.core] at h1
      rcases getD_set_eq_or s.cores c c1 none none with ⟨heq, -, -⟩ | heq
      · rw [h1] at heq
        exact absurd heq (by simp)
      · rw [heq] at h1
        exact h1
    exact ⟨fun c1 c2 a1 a2 h1 h2 huuid =>
        hU c1 c2 a1 a2 (hset c1 a1 h1) (hset c2 a2 h2) huuid,
      fun atr' toSet' hd' c1 a1 h1 huuid =>
        hD atr' toSet' hd' c1 a1 (hset c1 a1 h1) huuid⟩
  | supDone k atr hsup =>
    exact ⟨fun c1 c2 a1 a2 h1 h2 huuid => hU c1 c2 a1 a2 h1 h2 huuid,
      fun atr' toSet' hd' => hD atr' toSet' hd'⟩
  | dispatchFail t st hdrv =>
    exact ⟨fun c1 c2 a1 a2 h1 h2 huuid => hU c1 c2 a1 a2 h1 h2 huuid,
      fun atr' toSet' hd' => by simp at hd'⟩
  | drainRemove t hw hq =>
    exact ⟨fun c1 c2 a1 a2 h1 h2 huuid => hU c1 c2 a1 a2 h1 h2 huuid,
      fun atr' toSet' hd' => hD atr' toSet' hd'⟩

/-- Both invariants hold in every state reachable from the initial
state. -/
lemma reach_coreUnique (uuid : Nat → String) (qs : List (List Run))
    (ncores : Nat) (s : SchedState)
    (hreach : Reach uuid (initState qs ncores) s) :
    CoreUnique uuid s ∧ DispUnique uuid s := by
  induction hreach with
  | refl =>
    constructor
    · intro c1 c2 a1 a2 h1 h2 _
      rw [initState_core] at h1
      exact absurd h1 (by simp)
    · intro atr toSet hd
      simp [initState] at hd
  | tail hr hstep ih =>
    exact step_coreUnique uuid _ _ hstep ih.1 ih.2

/-- C2: in every state reachable by scheduler/supervisor transitions
(every lock-release boundary of the Core Map), at most one
`ActiveTaskRun` per task appears among the Core Map's values: any two
entries for the same task are the same run (first conjunct).  The
scheduler's exclusion test — modelled as the `scanDispatch`
precondition that no non-vacant entry's task uuid equals the
candidate's — preserves this invariant across any single transition
(second conjunct). -/
theorem C2_exclusion_invariant :
    (∀ (uuid : Nat → String) (qs : List (List Run)) (ncores : Nat)
      (s : SchedState),
      Reach uuid (initState qs ncores) s →
      ∀ c1 c2 a1 a2, s.core c1 = some a1 → s.core c2 = some a2 →
        a1.taskIdx = a2.taskIdx → a1 = a2) ∧
    (∀ (uuid : Nat → String) (s s' : SchedState),
      CoreUnique uuid s → DispUnique uuid s → Step uuid s s' →
      CoreUnique uuid s') := by
  constructor
  · intro uuid qs ncores s hreach c1 c2 a1 a2 h1 h2 htask
    exact (reach_coreUnique uuid qs ncores s hreach).1 c1 c2 a1 a2 h1 h2
      (by rw [htask])
  · intro uuid s s' hU hD hstep
    exact (step_coreUnique uuid s s' hstep hU hD).1

/-- The driver's unlocked peek of task 0's stage 1. -/
lemma exStep00a : Step uuidEx exS0 exS0a :=
  Step.peekStage exS0 0 stage1 [stage2] rfl (by decide) rfl

/-- The first dispatch step of the cancellation scenario: exclusion
scan, core selection and dequeue of stage 1 for task 0. -/
lemma exStep01 : Step uuidEx exS0a exS1 := by
  exact Step.scanDispatch exS0a 0 stage1
    [0] rfl (by decide) (by decide) (by decide)
    (by
      intro c a hc
      have h0 : exS0a.core c = none := initState_core [[stage1, stage2], [stageB]] 2 c
      rw [h0] at hc
      exact absurd hc (by simp))

/-- The core-set step of the scenario. -/
lemma exStep12 : Step uuidEx exS1 exS2 :=
  Step.setCore exS1 atrEx 0 [] rfl rfl

/-- The supervisor-spawn step of the scenario. -/
lemma exStep23 : Step uuidEx exS2 exS3 :=
  Step.finishDispatch exS2 atrEx rfl

/-- The state with task 0's stage 1 active on core 0 is reachable. -/
lemma exReach3 : Reach uuidEx (initState [[stage1, stage2], [stageB]] 2) exS3 :=
  Relation.ReflTransGen.tail
    (Relation.ReflTransGen.tail
      (Relation.ReflTransGen.tail
        (Relation.ReflTransGen.tail Relation.ReflTransGen.refl exStep00a)
        exStep01)
      exStep12)
    exStep23

/-- C2 witness: the invariant theorem applied at the concrete reachable
state `exS3`, whose core 0 holds task 0's run, and the preservation
conjunct applied at the concrete first step. -/
theorem C2_exclusion_invariant_witness :
    exS3.core 0 = some atrEx ∧ atrEx = atrEx ∧ CoreUnique uuidEx exS1 := by
  refine ⟨rfl, ?_, ?_⟩
  · exact C2_exclusion_invariant.1 uuidEx [[stage1, stage2], [stageB]] 2 exS3
      exReach3 0 0 atrEx atrEx rfl rfl rfl
  · refine C2_exclusion_invariant.2 uuidEx exS0a exS1 ?_ ?_ exStep01
    · intro c1 c2 a1 a2 h1 h2 _
      have h0 : exS0a.core c1 = none := initState_core [[stage1, stage2], [stageB]] 2 c1
      rw [h0] at h1
      exact absurd h1 (by simp)
    · intro atr toSet hd
      exact absurd hd (by simp [exS0a, exS0, initState])

/-- The runner-returned step of the cancellation scenario: stage 1 of
task 0 exits with a failure. -/
lemma exStep34 : Step uuidEx exS3 exS4 :=
  Step.supReturn exS3 0 atrEx true rfl

/-- The `task.Cancel()` step: task 0's queue is emptied. -/
lemma exStep45 : Step uuidEx exS4 exS5 :=
  Step.supCancel exS4 0 atrEx rfl

/-- The `wg.Done()` step. -/
lemma exStep56 : Step uuidEx exS5 exS6 :=
  Step.supSignal exS5 0 atrEx .cancelled rfl
    (Or.inr rfl)

/-- `getElem?` after a `set`: the new value (in range, same index) or
the old lookup. -/
lemma getElem?_set_or {α : Type} (l : List α) (k j : Nat) (x : α) :
    ((l.set k x)[j]? = some x ∧ k = j ∧ k < l.length) ∨
    (l.set k x)[j]? = l[j]? := by
  by_cases hkj : k = j
  · subst hkj
    by_cases hl : k < l.length
    · exact Or.inl ⟨List.getElem?_set_self hl, rfl, hl⟩
    · right
      rw [List.set_eq_of_length_le (Nat.le_of_not_lt hl)]
  · right
    rw [List.getElem?_set_ne hkj]

/-- Ownership is preserved by a supervisor-phase update that keeps the
run, stays live, and does not shrink the pending core set. -/
lemma owned_after_sup_update (s s' : SchedState) (k : Nat)
    (old fresh : SupState)
    (hdrv : s'.driver = s.driver)
    (hsups : s'.sups = s.sups.set k fresh)
    (hsup : s.sups[k]? = some old)
    (hatr : fresh.atr = old.atr)
    (hph : fresh.phase ≠ SupPhase.done)
    (hpend : ∀ c, c ∈ old.pending → c ∈ fresh.pending)
    (c : Nat) (a : ATR) (howned : Owned s c a) : Owned s' c a := by
  rcases howned with ⟨toSet, hd⟩ | ⟨j, sup, hj, hsa, hsph, hcp⟩
  · exact Or.inl ⟨toSet, by rw [hdrv, hd]⟩
  · by_cases hjk : k = j
    · subst hjk
      have hso : sup = old := by
        rw [hj] at hsup
        exact Option.some.inj hsup
      subst hso
      have hk : k < s.sups.length := (List.getElem?_eq_some.mp hj).1
      refine Or.inr ⟨k, fresh, ?_, ?_, hph, ?_⟩
      · rw [hsups]
        exact List.getElem?_set_self hk
      · rw [hatr, hsa]
      · exact hpend c hcp
    · refine Or.inr ⟨j, sup, ?_, hsa, hsph, hcp⟩
      rw [hsups, List.getElem?_set_ne hjk]
      exact hj

/-- One transition preserves ownership of occupied cores together with
the `CoreIds` and to-set invariants. -/
lemma step_ownerInv (uuid : Nat → String) (s s' : SchedState)
    (hstep : Step uuid s s')
    (hO : OwnerInv s) (hC : CoreIdsInv s) (hT : ToSetInv s) :
    OwnerInv s' ∧ CoreIdsInv s' ∧ ToSetInv s' := by
  cases hstep with
  | peekStage t st rest hdrv hw hq =>
    refine ⟨?_, fun c a hc => hC c a hc, ?_⟩
    · intro c a hc
      rcases hO c a hc with ⟨toSet, hd⟩ | ⟨j, sup, hj, hsa, hsph, hcp⟩
      · rw [hdrv] at hd
        exact absurd hd (by simp)
      · exact Or.inr ⟨j, sup, hj, hsa, hsph, hcp⟩
    · intro a toSet hd
      simp at hd
  | peekAbort t st hdrv =>
    refine ⟨?_, fun c a hc => hC c a hc, ?_⟩
    · intro c a hc
      rcases hO c a hc with ⟨toSet, hd⟩ | ⟨j, sup, hj, hsa, hsph, hcp⟩
      · rw [hdrv] at hd
        exact absurd hd (by simp)
      · exact Or.inr ⟨j, sup, hj, hsa, hsph, hcp⟩
    · intro a toSet hd
      simp at hd
  | scanDispatch t st cs hdrv hnd hlen hvac hexcl =>
    refine ⟨?_, fun c a hc => hC c a hc, ?_⟩
    · intro c a hc
      rcases hO c a hc with ⟨toSet, hd⟩ | ⟨j, sup, hj, hsa, hsph, hcp⟩
      · rw [hdrv] at hd
        exact absurd hd (by simp)
      · exact Or.inr ⟨j, sup, hj, hsa, hsph, hcp⟩
    · intro a toSet hd
      simp only [Driver.dispatching.injEq] at hd
      obtain ⟨ha, ht⟩ := hd
      rw [← ha, ← ht]
      exact fun c hc => hc
  | setCore atr c rest hdrv hvac =>
    have hcs : ∀ c1 a1,
        (s.cores.set c (some atr)).getD c1 none = some a1 →
        (c1 = c ∧ a1 = atr) ∨ s.core c1 = some a1 := by
      intro c1 a1 h1
      rcases getD_set_eq_or s.cores c c1 (some atr) none with ⟨heq, hcc, -⟩ | heq
      · rw [h1] at heq
        exact Or.inl ⟨hcc.symm, Option.some.inj heq⟩
      · rw [heq] at h1
        exact Or.inr h1
    have hsub : (c :: rest) ⊆ atr.coreIds := hT atr (c :: rest) hdrv
    refine ⟨?_, ?_, ?_⟩
    · intro c1 a1 h1
      rcases hcs c1 a1 h1 with ⟨he1, he2⟩ | h1o
      · exact Or.inl ⟨rest, by rw [he2]⟩
      · rcases hO c1 a1 h1o with ⟨toSet, hd⟩ | ⟨j, sup, hj, hsa, hsph, hcp⟩
        · rw [hdrv] at hd
          simp only [Driver.dispatching.injEq] at hd
          exact Or.inl ⟨rest, by rw [hd.1]⟩
        · exact Or.inr ⟨j, sup, hj, hsa, hsph, hcp⟩
    · intro c1 a1 h1
      rcases hcs c1 a1 h1 with ⟨he1, he2⟩ | h1o
      · rw [he1, he2]
        exact hsub (List.mem_cons_self c rest)
      · exact hC c1 a1 h1o
    · intro a toSet hd
      simp only [Driver.dispatching.injEq] at hd
      obtain ⟨ha, ht⟩ := hd
      rw [← ha, ← ht]
      exact fun x hx => hsub (List.mem_cons_of_mem c hx)
  | finishDispatch atr hdrv =>
    refine ⟨?_, fun c a hc => hC c a hc, ?_⟩
    · intro c a hc
      rcases hO c a hc with ⟨toSet, hd⟩ | ⟨j, sup, hj, hsa, hsph, hcp⟩
      · rw [hdrv] at hd
        simp only [Driver.dispatching.injEq] at hd
        refine Or.inr ⟨s.sups.length, ⟨atr, .running⟩, ?_, hd.1, by simp, ?_⟩
        · rw [List.getElem?_concat_length]
        · show c ∈ atr.coreIds
          rw [hd.1]
          exact hC c a hc
      · refine Or.inr ⟨j, sup, ?_, hsa, hsph, hcp⟩
        have hjlen : j < s.sups.length := (List.getElem?_eq_some.mp hj).1
        rw [List.getElem?_append_left hjlen]
        exact hj
    · intro a toSet hd
      simp at hd
  | supReturn k atr failed hsup =>
    refine ⟨?_, fun c a hc => hC c a hc, fun a t hd => hT a t hd⟩
    intro c a hc
    exact owned_after_sup_update s
      { s with sups := s.sups.set k ⟨atr, .returned failed⟩ } k
      ⟨atr, .running⟩ ⟨atr, .returned failed⟩ rfl rfl hsup rfl (by simp)
      (fun x hx => hx) c a (hO c a hc)
  | supCancel k atr hsup =>
    refine ⟨?_, fun c a hc => hC c a hc, fun a t hd => hT a t hd⟩
    intro c a hc
    exact owned_after_sup_update s
      { s with
        queues := s.queues.set atr.taskIdx [],
        sups := s.sups.set k ⟨atr, .cancelled⟩ } k
      ⟨atr, .returned true⟩ ⟨atr, .cancelled⟩ rfl rfl hsup rfl (by simp)
      (fun x hx => hx) c a (hO c a hc)
  | supSignal k atr ph hsup hph =>
    refine ⟨?_, fun c a hc => hC c a hc, fun a t hd => hT a t hd⟩
    intro c a hc
    refine owned_after_sup_update s
      { s with
        sups := s.sups.set k ⟨atr, .signalled atr.coreIds⟩,
        wg := s.wg - 1 } k
      ⟨atr, ph⟩ ⟨atr, .signalled atr.coreIds⟩
      rfl rfl hsup rfl (by simp) ?_ c a (hO c a hc)
    intro x hx
    rcases hph with rfl | rfl
    · exact hx
    · exact hx
  | supUnset k atr c pending hsup =>
    have hk : k < s.sups.length := (List.getElem?_eq_some.mp hsup).1
    have hsurv : ∀ c1 a1,
        (s.cores.set c none).getD c1 none = some a1 →
        s.core c1 = some a1 ∧ c1 ≠ c := by
      intro c1 a1 h1
      have h1o : s.core c1 = some a1 := by
        rcases getD_set_eq_or s.cores c c1 none none with ⟨heq, -, -⟩ | heq
        · rw [h1] at heq
          exact absurd heq (by simp)
        · show s.cores.getD c1 none = some a1
          rw [← heq]
          exact h1
      refine ⟨h1o, ?_⟩
      intro he
      subst he
      by_cases hl : c1 < s.cores.length
      · rw [List.getD_eq_getElem?_getD, List.getElem?_set_self hl] at h1
        exact absurd h1 (by simp)
      · have hnone : s.core c1 = none := by
          show s.cores.getD c1 none = none
          rw [List.getD_eq_default _ _ (Nat.le_of_not_lt hl)]
        rw [hnone] at h1o
        exact absurd h1o (by simp)
    refine ⟨?_, ?_, fun a t hd => hT a t hd⟩
    · intro c1 a1 h1
      obtain ⟨h1o, hne⟩ := hsurv c1 a1 h1
      rcases hO c1 a1 h1o with ⟨toSet, hd⟩ | ⟨j, sup, hj, hsa, hsph, hcp⟩
      · exact Or.inl ⟨toSet, hd⟩
      · by_cases hjk : k = j
        · subst hjk
          have hso : sup = ⟨atr, .signalled (c :: pending)⟩ := by
            rw [hj] at hsup
            exact Option.some.inj hsup
          subst hso
          refine Or.inr ⟨k, ⟨atr, .signalled pending⟩, ?_, hsa, by simp, ?_⟩
          · exact List.getElem?_set_self hk
          · have hcp2 : c1 ∈ c :: pending := hcp
            exact (List.mem_cons.mp hcp2).resolve_left hne
        · refine Or.inr ⟨j, sup, ?_, hsa, hsph, hcp⟩
          rw [List.getElem?_set_ne hjk]
          exact hj
    · intro c1 a1 h1
      exact hC c1 a1 (hsurv c1 a1 h1).1
  | supDone k atr hsup =>
    refine ⟨?_, fun c a hc => hC c a hc, fun a t hd => hT a t hd⟩
    intro c1 a1 h1
    rcases hO c1 a1 h1 with ⟨toSet, hd⟩ | ⟨j, sup, hj, hsa, hsph, hcp⟩
    · exact Or.inl ⟨toSet, hd⟩
    · by_cases hjk : k = j
      · subst hjk
        have hso : sup = ⟨atr, .signalled []⟩ := by
          rw [hj] at hsup
          exact Option.some.inj hsup
        subst hso
        exact absurd hcp (by simp [SupState.pending])
      · refine Or.inr ⟨j, sup, ?_, hsa, hsph, hcp⟩
        rw [List.getElem?_set_ne hjk]
        exact hj
  | dispatchFail t st hdrv =>
    refine ⟨?_, fun c a hc => hC c a hc, ?_⟩
    · intro c a hc
      rcases hO c a hc with ⟨toSet, hd⟩ | ⟨j, sup, hj, hsa, hsph, hcp⟩
      · rw [hdrv] at hd
        exact absurd hd (by simp)
      · exact Or.inr ⟨j, sup, hj, hsa, hsph, hcp⟩
    · intro a toSet hd
      simp at hd
  | drainRemove t hw hq =>
    exact ⟨fun c a hc => hO c a hc, fun c a hc => hC c a hc,
      fun a t hd => hT a t hd⟩

/-- The ownership invariants hold in every reachable state. -/
lemma reach_ownerInv (uuid : Nat → String) (qs : List (List Run))
    (ncores : Nat) (s : SchedState)
    (hreach : Reach uuid (initState qs ncores) s) :
    OwnerInv s ∧ CoreIdsInv s ∧ ToSetInv s := by
  induction hreach with
  | refl =>
    refine ⟨?_, ?_, ?_⟩
    · intro c a hc
      rw [initState_core] at hc
      exact absurd hc (by simp)
    · intro c a hc
      rw [initState_core] at hc
      exact absurd hc (by simp)
    · intro a t hd
      simp [initState] at hd
  | tail hr hstep ih =>
    exact step_ownerInv _ _ _ hstep ih.1 ih.2.1 ih.2.2

/-- C10 (amended): in the source, the supervisor calls `wg.Done()`
**before** the `coreMap.unset` loop, so the claimed order is wrong; what
does hold in every reachable state is that each occupied core belongs
to a dispatch still in progress or to a supervisor that has not yet
exited and still lists that core among the ids it has to release — so
every core of `atr.coreIds` is released by the time its supervisor
terminates. -/
theorem C10_core_release :
    ∀ (uuid : Nat → String) (qs : List (List Run)) (ncores : Nat)
      (s : SchedState),
    Reach uuid (initState qs ncores) s →
    ∀ c a, s.core c = some a → Owned s c a := by
  intro uuid qs ncores s hreach c a hc
  exact (reach_ownerInv uuid qs ncores s hreach).1 c a hc

/-- C10 witness: the release theorem applied at the reachable state
with task 0's run active on core 0. -/
theorem C10_core_release_witness :
    exS3.core 0 = some atrEx ∧ Owned exS3 0 atrEx :=
  ⟨rfl, C10_core_release uuidEx [[stage1, stage2], [stageB]] 2 exS3 exReach3
    0 atrEx rfl⟩

/-- C10 counterexample to the claim as stated: in the reachable state
`exS6` the supervisor for task 0's run has already signalled the wait
group (its phase is past `wg.Done()`: the counter dropped from 1 to 0),
yet core 0 still holds that run — the wait group **is** signalled for a
run while the run still occupies cores, because the source signals
before unsetting. -/
theorem C10_counterexample :
    Reach uuidEx (initState [[stage1, stage2], [stageB]] 2) exS6 ∧
    exS6.sups[0]? = some ⟨atrEx, .signalled [0]⟩ ∧
    exS6.core 0 = some atrEx ∧
    exS5.wg = 1 ∧ exS6.wg = 0 := by
  refine ⟨?_, rfl, rfl, rfl, rfl⟩
  exact Relation.ReflTransGen.tail
    (Relation.ReflTransGen.tail
      (Relation.ReflTransGen.tail exReach3 exStep34)
      exStep45)
    exStep56

end Wayfinder
